import Mathlib

/-!
Verification of the dynamic API-tool registration engine of the petstore
MCP server (`turtlemint_server.py`).

The Python module is shallowly embedded: JSON-shaped Python values (the
parsed OpenAPI documents, parameter dictionaries, keyword-argument values)
become the inductive type `JsonVal`; Python dictionaries become ordered
association lists (Python dicts preserve insertion order); functions that
can raise become `Except PyErr`-valued functions; the HTTP transport is cut
at its call boundary, so a tool invocation evaluates to the `RequestData`
handed to the transport rather than to a live network call.

Each embedded definition mirrors one function of the source file and keeps
its name where Lean allows it.
-/

namespace PetstoreMcp

/-- JSON-shaped Python values: `None`, booleans, numbers (the integer
numerals the engine manipulates), strings, lists and dicts. A dict is an
ordered association list, matching Python's insertion-ordered dicts. -/
inductive JsonVal where
  | null
  | bool (b : Bool)
  | num (n : Int)
  | str (s : String)
  | arr (elems : List JsonVal)
  | obj (members : List (String × JsonVal))
deriving Repr

mutual

def jsonDecEq : (a b : JsonVal) → Decidable (a = b)
  | .null, .null => isTrue rfl
  | .null, .bool _ => isFalse fun h => JsonVal.noConfusion h
  | .null, .num _ => isFalse fun h => JsonVal.noConfusion h
  | .null, .str _ => isFalse fun h => JsonVal.noConfusion h
  | .null, .arr _ => isFalse fun h => JsonVal.noConfusion h
  | .null, .obj _ => isFalse fun h => JsonVal.noConfusion h
  | .bool _, .null => isFalse fun h => JsonVal.noConfusion h
  | .bool a, .bool b =>
    match decEq a b with
    | isTrue h => isTrue (by rw [h])
    | isFalse h => isFalse fun e => h (by injection e)
  | .bool _, .num _ => isFalse fun h => JsonVal.noConfusion h
  | .bool _, .str _ => isFalse fun h => JsonVal.noConfusion h
  | .bool _, .arr _ => isFalse fun h => JsonVal.noConfusion h
  | .bool _, .obj _ => isFalse fun h => JsonVal.noConfusion h
  | .num _, .null => isFalse fun h => JsonVal.noConfusion h
  | .num _, .bool _ => isFalse fun h => JsonVal.noConfusion h
  | .num a, .num b =>
    match decEq a b with
    | isTrue h => isTrue (by rw [h])
    | isFalse h => isFalse fun e => h (by injection e)
  | .num _, .str _ => isFalse fun h => JsonVal.noConfusion h
  | .num _, .arr _ => isFalse fun h => JsonVal.noConfusion h
  | .num _, .obj _ => isFalse fun h => JsonVal.noConfusion h
  | .str _, .null => isFalse fun h => JsonVal.noConfusion h
  | .str _, .bool _ => isFalse fun h => JsonVal.noConfusion h
  | .str _, .num _ => isFalse fun h => JsonVal.noConfusion h
  | .str a, .str b =>
    match decEq a b with
    | isTrue h => isTrue (by rw [h])
    | isFalse h => isFalse fun e => h (by injection e)
  | .str _, .arr _ => isFalse fun h => JsonVal.noConfusion h
  | .str _, .obj _ => isFalse fun h => JsonVal.noConfusion h
  | .arr _, .null => isFalse fun h => JsonVal.noConfusion h
  | .arr _, .bool _ => isFalse fun h => JsonVal.noConfusion h
  | .arr _, .num _ => isFalse fun h => JsonVal.noConfusion h
  | .arr _, .str _ => isFalse fun h => JsonVal.noConfusion h
  | .arr a, .arr b =>
    match jsonListDecEq a b with
    | isTrue h => isTrue (by rw [h])
    | isFalse h => isFalse fun e => h (by injection e)
  | .arr _, .obj _ => isFalse fun h => JsonVal.noConfusion h
  | .obj _, .null => isFalse fun h => JsonVal.noConfusion h
  | .obj _, .bool _ => isFalse fun h => JsonVal.noConfusion h
  | .obj _, .num _ => isFalse fun h => JsonVal.noConfusion h
  | .obj _, .str _ => isFalse fun h => JsonVal.noConfusion h
  | .obj _, .arr _ => isFalse fun h => JsonVal.noConfusion h
  | .obj a, .obj b =>
    match jsonMembersDecEq a b with
    | isTrue h => isTrue (by rw [h])
    | isFalse h => isFalse fun e => h (by injection e)

def jsonListDecEq : (a b : List JsonVal) → Decidable (a = b)
  | [], [] => isTrue rfl
  | [], _ :: _ => isFalse fun h => List.noConfusion h
  | _ :: _, [] => isFalse fun h => List.noConfusion h
  | x :: xs, y :: ys =>
    match jsonDecEq x y with
    | isFalse h => isFalse fun e => h (by injection e)
    | isTrue h1 =>
      match jsonListDecEq xs ys with
      | isTrue h2 => isTrue (by rw [h1, h2])
      | isFalse h2 => isFalse fun e => h2 (by injection e)

def jsonMembersDecEq : (a b : List (String × JsonVal)) → Decidable (a = b)
  | [], [] => isTrue rfl
  | [], _ :: _ => isFalse fun h => List.noConfusion h
  | _ :: _, [] => isFalse fun h => List.noConfusion h
  | (k1, v1) :: xs, (k2, v2) :: ys =>
    match decEq k1 k2 with
    | isFalse h => isFalse fun e => h (by injection e with e1 e2; injection e1)
    | isTrue hk =>
      match jsonDecEq v1 v2 with
      | isFalse h => isFalse fun e => h (by injection e with e1 e2; injection e1)
      | isTrue hv =>
        match jsonMembersDecEq xs ys with
        | isTrue ht => isTrue (by rw [hk, hv, ht])
        | isFalse h => isFalse fun e => h (by injection e)

end

instance : DecidableEq JsonVal := jsonDecEq

/-- Equality on `Except` results is decidable when it is on both sides. -/
def exceptDecEq {e a : Type} [DecidableEq e] [DecidableEq a] :
    (x y : Except e a) → Decidable (x = y)
  | .error x, .error y =>
    match decEq x y with
    | isTrue h => isTrue (by rw [h])
    | isFalse h => isFalse fun q => h (by injection q)
  | .error _, .ok _ => isFalse fun h => Except.noConfusion h
  | .ok _, .error _ => isFalse fun h => Except.noConfusion h
  | .ok x, .ok y =>
    match decEq x y with
    | isTrue h => isTrue (by rw [h])
    | isFalse h => isFalse fun q => h (by injection q)

instance {e a : Type} [DecidableEq e] [DecidableEq a] : DecidableEq (Except e a) :=
  exceptDecEq

/-- Python exceptions the engine can raise while reading a spec document. -/
inductive PyErr where
  | keyError (key : String)
  | typeError (msg : String)
  | attributeError (msg : String)
deriving Repr, DecidableEq

/-- First value bound to a key in an ordered dict (association list). -/
def objLookup : List (String × JsonVal) → String → Option JsonVal
  | [], _ => none
  | (k, v) :: rest, key => if k = key then some v else objLookup rest key

/-- `d[key]` on a Python value: `KeyError` on a dict without the key,
`TypeError` on a non-dict receiver. -/
def pyGetItem (v : JsonVal) (key : String) : Except PyErr JsonVal :=
  match v with
  | .obj kvs =>
    match objLookup kvs key with
    | some x => .ok x
    | none => .error (.keyError key)
  | _ => .error (.typeError ("subscript on a non-dict value"))

/-- `d.get(key)` on a dict, `None` when absent. The engine only calls `.get`
on values that the OpenAPI data model declares to be dicts. -/
def pyDictGet (v : JsonVal) (key : String) : Option JsonVal :=
  match v with
  | .obj kvs => objLookup kvs key
  | _ => none

/-- `d.get(key, default)` on a dict. -/
def pyDictGetD (v : JsonVal) (key : String) (dflt : JsonVal) : JsonVal :=
  (pyDictGet v key).getD dflt

/-- Python truthiness of a JSON-shaped value. -/
def pyTruthy : JsonVal → Bool
  | .null => false
  | .bool b => b
  | .num n => n != 0
  | .str s => s != ""
  | .arr l => !l.isEmpty
  | .obj kvs => !kvs.isEmpty

/-- `key in d` on a dict (`False` on the non-dict values the engine never
feeds it). -/
def pyHasKey (v : JsonVal) (key : String) : Bool :=
  (pyDictGet v key).isSome

/-- A value that must be a Python string (its `.replace` method is about to
be called); anything else raises `AttributeError`. -/
def pyExpectStr (v : JsonVal) : Except PyErr String :=
  match v with
  | .str s => .ok s
  | _ => .error (.attributeError ("str method called on a non-string value"))

/-- A value the engine iterates as a parameter list; the OpenAPI data model
makes it a JSON array. -/
def pyExpectArr (v : JsonVal) : Except PyErr (List JsonVal) :=
  match v with
  | .arr l => .ok l
  | _ => .error (.typeError ("iteration over a non-list value"))

/-- A value whose `.items()` the engine iterates; a JSON object. -/
def pyExpectObj (v : JsonVal) : Except PyErr (List (String × JsonVal)) :=
  match v with
  | .obj kvs => .ok kvs
  | _ => .error (.typeError ("items() on a non-dict value"))

/-! ## Characters the engine manipulates -/

/-- The `\x7b` character (opening brace), written by code point so that test
strings can stay brace-free. -/
def lbrace : Char := Char.ofNat 123

/-- The `\x7d` character (closing brace). -/
def rbrace : Char := Char.ofNat 125

/-- Single quote, used by Python `repr` of strings. -/
def squote : Char := Char.ofNat 39

/-! ## `sanitize_name` / `unsanitize_name` -/

/-- `sanitize_name`: hyphen-to-underscore normalization of an argument
name (`name.replace("-", "_")`). -/
def sanitize_name (name : String) : String :=
  String.mk (name.data.map (fun c => if c = '-' then '_' else c))

/-- `unsanitize_name`: the reverse substitution (`name.replace("_", "-")`). -/
def unsanitize_name (name : String) : String :=
  String.mk (name.data.map (fun c => if c = '_' then '-' else c))

/-! ## `parse_parameters` -/

/-- The advisory type hint `parse_parameters` computes for every parameter
and then discards: `param.get("type") or (param.get("schema") or
\x7b\x7d).get("type", "str")`. The `or` chain short-circuits on a truthy
`type` entry; otherwise `.get` is called on the `schema` value, which
raises `AttributeError` when that value is truthy but not a dict. -/
def resolved_param_type (param : JsonVal) : Except PyErr JsonVal :=
  let t := pyDictGetD param ("type") .null
  if pyTruthy t then .ok t
  else
    let schema := pyDictGetD param ("schema") .null
    if pyTruthy schema then
      match schema with
      | .obj kvs => .ok (pyDictGetD (.obj kvs) ("type") (.str ("str")))
      | _ => .error (.attributeError ("get called on a non-dict schema"))
    else .ok (.str ("str"))

/-- `parse_parameters`: one pass over the spec-declared parameter dicts.
Each parameter contributes its sanitized name to the argument list, in
order; a parameter whose `required` entry is absent or falsy also gets the
default value `None` recorded for it. `param["name"]` raises `KeyError`
when the dict has no `name` entry, and the discarded type-hint computation
raises `AttributeError` on a truthy non-dict `schema`. -/
def parse_parameters : List JsonVal → Except PyErr (List String × List (String × JsonVal))
  | [] => .ok ([], [])
  | param :: rest => do
    let nameVal ← pyGetItem param ("name")
    let rawName ← pyExpectStr nameVal
    let name := sanitize_name rawName
    let required := pyTruthy (pyDictGetD param ("required") (.bool false))
    let _ ← resolved_param_type param
    let (args, defaults) ← parse_parameters rest
    if required then
      .ok (name :: args, defaults)
    else
      .ok (name :: args, (name, JsonVal.null) :: defaults)

/-! ## `build_func`: signature synthesis -/

/-- The argument list and default map `build_func` computes for one
operation: the parsed parameters, plus a synthetic optional `body`
argument appended when a truthy `requestBody` declares
`application/json` content. -/
def build_func_args (operation : JsonVal) : Except PyErr (List String × List (String × JsonVal)) := do
  let ps ← pyExpectArr (pyDictGetD operation ("parameters") (.arr []))
  let request_body := pyDictGetD operation ("requestBody") .null
  if pyTruthy request_body then
    if pyHasKey (pyDictGetD request_body ("content") (.obj [])) ("application/json") then
      let (args, defaults) ← parse_parameters ps
      .ok (args ++ ["body"], defaults ++ [("body", JsonVal.null)])
    else
      parse_parameters ps
  else
    parse_parameters ps

/-! ## `api_tool`: invocation-time request construction -/

/-- Keyword arguments of one invocation, an ordered mapping from sanitized
argument name to value. A `None` value and an absent key are both the
absent sentinel at lookup time, but presence of the key itself is still
observable (`"body" in kwargs`). -/
abbrev Kwargs := List (String × JsonVal)

/-- `kwargs.get(name)`: `None` when the key is absent. -/
def kwGet (kwargs : Kwargs) (name : String) : JsonVal :=
  (objLookup kwargs name).getD .null

/-- `name in kwargs`. -/
def kwHas (kwargs : Kwargs) (name : String) : Bool :=
  (objLookup kwargs name).isSome

/-- `d[key] = v` on an insertion-ordered dict: an existing binding is
updated in place, a new one is appended. -/
def dictInsert (d : List (String × JsonVal)) (key : String) (v : JsonVal) :
    List (String × JsonVal) :=
  if (objLookup d key).isSome then
    d.map (fun kv => if kv.1 = key then (key, v) else kv)
  else d ++ [(key, v)]

/-- The parameter-collection loop of `api_tool`: walks the declared
parameters in order, reads each one's argument by sanitized name, skips
`None` values, and files present values into the path, query, or header
dict by the parameter's declared location (defaulting to `query`; any
other location is dropped). -/
def collect_params (kwargs : Kwargs) :
    List JsonVal → List (String × JsonVal) → List (String × JsonVal) →
    List (String × JsonVal) →
    Except PyErr (List (String × JsonVal) × List (String × JsonVal) × List (String × JsonVal))
  | [], path_params, query_params, headers => .ok (path_params, query_params, headers)
  | param :: rest, path_params, query_params, headers => do
    let rawVal ← pyGetItem param ("name")
    let raw_name ← pyExpectStr rawVal
    let param_location := pyDictGetD param ("in") (.str ("query"))
    let value := kwGet kwargs (sanitize_name raw_name)
    if value = JsonVal.null then
      collect_params kwargs rest path_params query_params headers
    else if param_location = .str ("path") then
      collect_params kwargs rest (dictInsert path_params raw_name value) query_params headers
    else if param_location = .str ("query") then
      collect_params kwargs rest path_params (dictInsert query_params raw_name value) headers
    else if param_location = .str ("header") then
      collect_params kwargs rest path_params query_params (dictInsert headers raw_name value)
    else
      collect_params kwargs rest path_params query_params headers

/-- Decimal digit character. -/
def digitChar (d : Nat) : Char :=
  match d with
  | 0 => '0' | 1 => '1' | 2 => '2' | 3 => '3' | 4 => '4'
  | 5 => '5' | 6 => '6' | 7 => '7' | 8 => '8' | _ => '9'

/-- Decimal digits, fueled so that the kernel can evaluate it; the fuel
bound `n + 1` always suffices. -/
def natDigitsAux : Nat → Nat → List Char
  | 0, _ => []
  | fuel + 1, n =>
    if n < 10 then [digitChar n]
    else natDigitsAux fuel (n / 10) ++ [digitChar (n % 10)]

/-- Decimal digits of a natural number, most significant first. -/
def natDigits (n : Nat) : List Char := natDigitsAux (n + 1) n

/-- Decimal rendering of an integer, as Python `str(int)` writes it. -/
def intChars (i : Int) : List Char :=
  if i < 0 then '-' :: natDigits i.natAbs else natDigits i.natAbs

mutual

/-- Python `str()` of a JSON-shaped value, as the path-substitution step
applies it: strings pass through unchanged, scalars use their Python
renderings, containers use their `repr`. -/
def pyStr : JsonVal → List Char
  | .str s => s.data
  | v => pyRepr v

/-- Python `repr()` of a JSON-shaped value (strings single-quoted; the
engine's path values are scalars, so nested quoting subtleties are not
exercised). -/
def pyRepr : JsonVal → List Char
  | .null => ['N','o','n','e']
  | .bool true => ['T','r','u','e']
  | .bool false => ['F','a','l','s','e']
  | .num i => intChars i
  | .str s => squote :: s.data ++ [squote]
  | .arr l => '[' :: pyReprElems l ++ [']']
  | .obj kvs => lbrace :: pyReprMembers kvs ++ [rbrace]

def pyReprElems : List JsonVal → List Char
  | [] => []
  | [x] => pyRepr x
  | x :: y :: rest => pyRepr x ++ ',' :: ' ' :: pyReprElems (y :: rest)

def pyReprMembers : List (String × JsonVal) → List Char
  | [] => []
  | [(k, v)] => squote :: k.data ++ squote :: ':' :: ' ' :: pyRepr v
  | (k, v) :: m :: rest =>
    squote :: k.data ++ squote :: ':' :: ' ' :: pyRepr v ++ ',' :: ' ' :: pyReprMembers (m :: rest)

end

/-- `hay.replace(pat, rep)`: every non-overlapping occurrence of `pat`,
scanned left to right, becomes `rep`. The engine only substitutes nonempty
patterns of the shape `\x7b name \x7d`. -/
def replaceListAux : Nat → List Char → List Char → List Char → List Char
  | 0, hay, _, _ => hay
  | fuel + 1, hay, pat, rep =>
    match hay with
    | [] => []
    | c :: rest =>
      if !pat.isEmpty && pat.isPrefixOf (c :: rest) then
        rep ++ replaceListAux fuel ((c :: rest).drop pat.length) pat rep
      else
        c :: replaceListAux fuel rest pat rep

def replaceList (hay pat rep : List Char) : List Char :=
  replaceListAux hay.length hay pat rep

/-- String form of `replaceList`. -/
def pyReplace (s pat rep : String) : String :=
  String.mk (replaceList s.data pat.data rep.data)

/-- The request a tool invocation hands to the transport collaborator
(`make_api_request`): method, substituted path, body payload (`null` for
no payload, as Python `data=None`), query map and header map. -/
structure RequestData where
  method : String
  path : String
  body : JsonVal
  queryParams : List (String × JsonVal)
  headers : List (String × JsonVal)
deriving Repr, DecidableEq

/-- The placeholder text `\x7b name \x7d` substituted in paths. -/
def placeholder (name : String) : String :=
  String.mk (lbrace :: name.data ++ [rbrace])

/-- One invocation of the callable `build_func` builds: collect the
declared parameters from `kwargs` by location, read a `body` argument when
the operation has a truthy `requestBody` and the key is present, then
substitute each collected path parameter into the endpoint. The returned
`RequestData` is exactly what the invocation passes to the transport —
every `.ok` result is a performed network call. -/
def api_tool (endpoint method : String) (operation : JsonVal) (kwargs : Kwargs) :
    Except PyErr RequestData := do
  let parameters ← pyExpectArr (pyDictGetD operation ("parameters") (.arr []))
  let request_body := pyDictGetD operation ("requestBody") .null
  let (path_params, query_params, headers) ← collect_params kwargs parameters [] [] []
  let body := if pyTruthy request_body && kwHas kwargs ("body") then kwGet kwargs ("body") else .null
  let path := path_params.foldl
    (fun p kv => pyReplace p (placeholder kv.1) (String.mk (pyStr kv.2))) endpoint
  .ok { method := method, path := path, body := body,
        queryParams := query_params, headers := headers }

/-! ## MD5 (`hashlib.md5`), on bytes as naturals reduced mod 2^32 -/

/-- 2^32, the word modulus. -/
def w32 : Nat := 4294967296

/-- Bitwise complement within a 32-bit word. -/
def not32 (x : Nat) : Nat := 4294967295 - (x % w32)

/-- Left rotation of a 32-bit word by `n < 32` places. -/
def rotl32 (x n : Nat) : Nat :=
  ((x % 2 ^ (32 - n)) * 2 ^ n) + (x % w32) / 2 ^ (32 - n)

/-- The 64 MD5 sine-derived constants. -/
def md5K : List Nat :=
  [0xd76aa478, 0xe8c7b756, 0x242070db, 0xc1bdceee,
   0xf57c0faf, 0x4787c62a, 0xa8304613, 0xfd469501,
   0x698098d8, 0x8b44f7af, 0xffff5bb1, 0x895cd7be,
   0x6b901122, 0xfd987193, 0xa679438e, 0x49b40821,
   0xf61e2562, 0xc040b340, 0x265e5a51, 0xe9b6c7aa,
   0xd62f105d, 0x02441453, 0xd8a1e681, 0xe7d3fbc8,
   0x21e1cde6, 0xc33707d6, 0xf4d50d87, 0x455a14ed,
   0xa9e3e905, 0xfcefa3f8, 0x676f02d9, 0x8d2a4c8a,
   0xfffa3942, 0x8771f681, 0x6d9d6122, 0xfde5380c,
   0xa4beea44, 0x4bdecfa9, 0xf6bb4b60, 0xbebfbc70,
   0x289b7ec6, 0xeaa127fa, 0xd4ef3085, 0x04881d05,
   0xd9d4d039, 0xe6db99e5, 0x1fa27cf8, 0xc4ac5665,
   0xf4292244, 0x432aff97, 0xab9423a7, 0xfc93a039,
   0x655b59c3, 0x8f0ccc92, 0xffeff47d, 0x85845dd1,
   0x6fa87e4f, 0xfe2ce6e0, 0xa3014314, 0x4e0811a1,
   0xf7537e82, 0xbd3af235, 0x2ad7d2bb, 0xeb86d391]

/-- The 64 MD5 per-round shift amounts. -/
def md5S : List Nat :=
  [7, 12, 17, 22, 7, 12, 17, 22, 7, 12, 17, 22, 7, 12, 17, 22,
   5, 9, 14, 20, 5, 9, 14, 20, 5, 9, 14, 20, 5, 9, 14, 20,
   4, 11, 16, 23, 4, 11, 16, 23, 4, 11, 16, 23, 4, 11, 16, 23,
   6, 10, 15, 21, 6, 10, 15, 21, 6, 10, 15, 21, 6, 10, 15, 21]

/-- One MD5 round: state (a, b, c, d), round index `i`, message words `M`. -/
def md5Step (M : List Nat) (st : Nat × Nat × Nat × Nat) (i : Nat) : Nat × Nat × Nat × Nat :=
  let a := st.1
  let b := st.2.1
  let c := st.2.2.1
  let d := st.2.2.2
  let f :=
    if i < 16 then (b &&& c) ||| (not32 b &&& d)
    else if i < 32 then (d &&& b) ||| (not32 d &&& c)
    else if i < 48 then (b ^^^ c) ^^^ d
    else c ^^^ (b ||| not32 d)
  let g :=
    if i < 16 then i
    else if i < 32 then (5 * i + 1) % 16
    else if i < 48 then (3 * i + 5) % 16
    else (7 * i) % 16
  let tmp := (f + a + md5K.getD i 0 + M.getD g 0) % w32
  (d, (b + rotl32 tmp (md5S.getD i 0)) % w32, b, c)

/-- Split a byte list into 64-byte blocks (fueled; each step consumes at
least one byte, so the list's length is enough fuel). -/
def chunks64Aux : Nat → List Nat → List (List Nat)
  | 0, _ => []
  | fuel + 1, l =>
    match l with
    | [] => []
    | b :: rest => (b :: rest).take 64 :: chunks64Aux fuel ((b :: rest).drop 64)

/-- Split a byte list into 64-byte blocks. -/
def chunks64 (l : List Nat) : List (List Nat) := chunks64Aux l.length l

/-- Little-endian bytes of a 64-bit length field. -/
def le64 (n : Nat) : List Nat :=
  [n % 256, n / 256 % 256, n / 65536 % 256, n / 16777216 % 256,
   n / 4294967296 % 256, n / 1099511627776 % 256,
   n / 281474976710656 % 256, n / 72057594037927936 % 256]

/-- MD5 padding: `0x80`, zeros to 56 mod 64, then the bit length
little-endian in 64 bits. -/
def md5Pad (msg : List Nat) : List Nat :=
  msg ++ 128 :: List.replicate ((119 - msg.length % 64) % 64) 0
      ++ le64 (msg.length * 8 % 2 ^ 64)

/-- 32-bit words of one 64-byte block, little-endian. -/
def wordsLE (block : List Nat) : List Nat :=
  (List.range 16).map fun i =>
    block.getD (4 * i) 0 + 256 * block.getD (4 * i + 1) 0 +
      65536 * block.getD (4 * i + 2) 0 + 16777216 * block.getD (4 * i + 3) 0

/-- MD5 block compression. -/
def md5Compress (h : Nat × Nat × Nat × Nat) (block : List Nat) : Nat × Nat × Nat × Nat :=
  let M := wordsLE block
  let r := (List.range 64).foldl (md5Step M) h
  ((h.1 + r.1) % w32, (h.2.1 + r.2.1) % w32, (h.2.2.1 + r.2.2.1) % w32, (h.2.2.2 + r.2.2.2) % w32)

/-- Little-endian bytes of one 32-bit word. -/
def wordBytesLE (w : Nat) : List Nat :=
  [w % 256, w / 256 % 256, w / 65536 % 256, w / 16777216 % 256]

/-- The 16 digest bytes of MD5 over a byte message. -/
def md5Digest (msg : List Nat) : List Nat :=
  let h := (chunks64 (md5Pad msg)).foldl md5Compress
    (0x67452301, 0xefcdab89, 0x98badcfe, 0x10325476)
  wordBytesLE h.1 ++ wordBytesLE h.2.1 ++ wordBytesLE h.2.2.1 ++ wordBytesLE h.2.2.2

/-- Lowercase hexadecimal digit. -/
def hexChar (d : Nat) : Char :=
  match d with
  | 0 => '0' | 1 => '1' | 2 => '2' | 3 => '3' | 4 => '4'
  | 5 => '5' | 6 => '6' | 7 => '7' | 8 => '8' | 9 => '9'
  | 10 => 'a' | 11 => 'b' | 12 => 'c' | 13 => 'd' | 14 => 'e' | _ => 'f'

/-- `hexdigest()`: two lowercase hex characters per digest byte. -/
def md5HexChars (msg : List Nat) : List Char :=
  (md5Digest msg).foldr (fun b acc => hexChar (b / 16 % 16) :: hexChar (b % 16) :: acc) []

/-! ## `sanitize_tool_name` -/

/-- One character of the allowed set `[a-zA-Z0-9_-]` kept by
`re.sub(r'[^a-zA-Z0-9_-]', '', ...)`. -/
def allowedChar (c : Char) : Bool :=
  (97 ≤ c.toNat && c.toNat ≤ 122) || (65 ≤ c.toNat && c.toNat ≤ 90) ||
    (48 ≤ c.toNat && c.toNat ≤ 57) || c = '_' || c = '-'

/-- `endpoint.strip('/')`: leading and trailing slashes removed. -/
def stripSlashes (s : String) : String :=
  String.mk (((s.data.dropWhile (fun c => c = '/')).reverse.dropWhile
    (fun c => c = '/')).reverse)

/-- The path part of the raw tool name: strip slashes, turn the remaining
slashes into underscores, delete every brace. -/
def cleanEndpoint (endpoint : String) : String :=
  String.mk ((((stripSlashes endpoint).data.map
    (fun c => if c = '/' then '_' else c)).filter
      (fun c => c ≠ lbrace)).filter (fun c => c ≠ rbrace))

/-- `sanitize_tool_name`: `method_path` with only allowed characters kept,
and names longer than 64 characters truncated to 55 plus `_` plus the
first 8 hex characters of the MD5 of the cleaned name. The cleaned name
contains only ASCII, so `encode()` is the identity on code points. -/
def sanitize_tool_name (method endpoint : String) : String :=
  let raw_name := method ++ "_" ++ cleanEndpoint endpoint
  let cleaned := raw_name.data.filter allowedChar
  if 64 < cleaned.length then
    String.mk (cleaned.take 55) ++ "_" ++
      String.mk ((md5HexChars (cleaned.map Char.toNat)).take 8)
  else String.mk cleaned

/-! ## `register_all_tools` -/

/-- What one `mcp.tool(...)` registration receives: the sanitized name,
the description, and the introspectable signature split into required
arguments (no default) and optional arguments with their defaults, in
resolved order (`build_func` lines 153-162). -/
structure RegisteredTool where
  name : String
  description : JsonVal
  required : List String
  optional : List (String × JsonVal)
deriving Repr, DecidableEq

/-- ASCII uppercase, as `method.upper()` on HTTP verbs. -/
def pyUpper (s : String) : String := String.mk (s.data.map Char.toUpper)

/-- The required/optional partition `build_func` performs on the argument
list before building the signature. -/
def signature_partition (args : List String) (defaults : List (String × JsonVal)) :
    List String × List (String × JsonVal) :=
  (args.filter (fun a => (objLookup defaults a).isNone),
   (args.filter (fun a => (objLookup defaults a).isSome)).map
     (fun a => (a, kwGet defaults a)))

/-- Registration of every method of one path. -/
def register_ops (endpoint : String) :
    List (String × JsonVal) → Except PyErr (List RegisteredTool)
  | [] => .ok []
  | (methodName, operation) :: rest => do
    let summary := pyDictGetD operation ("summary")
      (.str (pyUpper methodName ++ " " ++ endpoint))
    let (args, defaults) ← build_func_args operation
    let (req, opt) := signature_partition args defaults
    let rest' ← register_ops endpoint rest
    .ok ({ name := sanitize_tool_name methodName endpoint, description := summary,
           required := req, optional := opt } :: rest')

/-- Registration of every path of the spec document. -/
def register_paths : List (String × JsonVal) → Except PyErr (List RegisteredTool)
  | [] => .ok []
  | (endpoint, ops) :: rest => do
    let opsItems ← pyExpectObj ops
    let tools ← register_ops endpoint opsItems
    let rest' ← register_paths rest
    .ok (tools ++ rest')

/-- `register_all_tools`, from an already-acquired spec document: iterate
`spec["paths"].items()`, build each operation's tool and register it under
its sanitized name. The list is the sequence of registry registrations. -/
def register_all_tools (spec : JsonVal) : Except PyErr (List RegisteredTool) := do
  let paths ← pyGetItem spec ("paths")
  let pathItems ← pyExpectObj paths
  register_paths pathItems

/-! ## JSON text: a model of `json.dumps` / `json.loads`

Numbers are the integer numerals the engine's documents use; `\uXXXX`
escapes are not modeled (the serializer never emits them). `json_loads`
demands that nothing but whitespace follow the value, as `json.loads`
does. -/

/-- Backslash. -/
def bslash : Char := Char.ofNat 92

/-- Serialization of one string character: quote and backslash escaped,
everything else verbatim. -/
def escapeChar (c : Char) : List Char :=
  if c = '"' then [bslash, '"']
  else if c = bslash then [bslash, bslash]
  else [c]

/-- Serialized body of a string (no surrounding quotes). -/
def escBody (s : List Char) : List Char :=
  s.foldr (fun c acc => escapeChar c ++ acc) []

/-- Serialized string with quotes. -/
def dumpStringChars (s : List Char) : List Char :=
  '"' :: escBody s ++ ['"']

mutual

/-- Compact JSON serialization of a value. -/
def jsonDumpChars : JsonVal → List Char
  | .num i => intChars i
  | .str s => dumpStringChars s.data
  | .null => ['n', 'u', 'l', 'l']
  | .bool false => ['f', 'a', 'l', 's', 'e']
  | .bool true => ['t', 'r', 'u', 'e']
  | .arr l => '[' :: dumpElems l ++ [']']
  | .obj kvs => lbrace :: dumpMembers kvs ++ [rbrace]

def dumpElems : List JsonVal → List Char
  | [] => []
  | [x] => jsonDumpChars x
  | x :: y :: rest => jsonDumpChars x ++ ',' :: dumpElems (y :: rest)

def dumpMembers : List (String × JsonVal) → List Char
  | [] => []
  | [(k, v)] => dumpStringChars k.data ++ ':' :: jsonDumpChars v
  | (k, v) :: m :: rest =>
    dumpStringChars k.data ++ ':' :: jsonDumpChars v ++ ',' :: dumpMembers (m :: rest)

end

/-- `json.dumps` (compact separators). -/
def json_dumps (v : JsonVal) : String := String.mk (jsonDumpChars v)

/-- The whitespace `json.loads` skips between tokens. -/
def isWsChar (c : Char) : Bool :=
  c = ' ' || c = '\t' || c = '\n' || c = '\r'

/-- Skip inter-token whitespace. -/
def skipWs (l : List Char) : List Char := l.dropWhile isWsChar

/-- Decoding of a backslash escape. -/
def escDecode (c : Char) : Option Char :=
  if c = '"' then some '"'
  else if c = bslash then some bslash
  else if c = '/' then some '/'
  else if c = 'n' then some '\n'
  else if c = 't' then some '\t'
  else if c = 'r' then some '\r'
  else if c = 'b' then some (Char.ofNat 8)
  else if c = 'f' then some (Char.ofNat 12)
  else none

/-- Parse the body of a string literal up to its closing quote. -/
def parseStringBody : List Char → Option (List Char × List Char)
  | [] => none
  | c :: rest =>
    if c = '"' then some ([], rest)
    else if c = bslash then
      match rest with
      | [] => none
      | e :: rest2 =>
        match escDecode e with
        | some d =>
          match parseStringBody rest2 with
          | some (s, r) => some (d :: s, r)
          | none => none
        | none => none
    else
      match parseStringBody rest with
      | some (s, r) => some (c :: s, r)
      | none => none
termination_by structural l => l

/-- ASCII decimal digit test. -/
def isDigitChar (c : Char) : Bool := 48 ≤ c.toNat && c.toNat ≤ 57

/-- Value of a decimal digit character. -/
def digitVal (c : Char) : Nat := c.toNat - 48

/-- Natural number denoted by a digit string, most significant first. -/
def natFromDigits (l : List Char) : Nat :=
  l.foldl (fun n c => 10 * n + digitVal c) 0

/-- Parse an integer numeral (optional minus sign, then digits). -/
def parseNum (l : List Char) : Option (JsonVal × List Char) :=
  match l with
  | [] => none
  | c :: rest =>
    if c = '-' then
      let ds := rest.takeWhile isDigitChar
      if ds.isEmpty then none
      else some (.num (-(natFromDigits ds : Int)), rest.dropWhile isDigitChar)
    else
      let ds := (c :: rest).takeWhile isDigitChar
      if ds.isEmpty then none
      else some (.num (natFromDigits ds), (c :: rest).dropWhile isDigitChar)

mutual

/-- Fueled recursive-descent parse of one JSON value. -/
def parseVal : Nat → List Char → Option (JsonVal × List Char)
  | 0, _ => none
  | fuel + 1, input =>
    match skipWs input with
    | [] => none
    | c :: rest =>
      if c = '"' then
        match parseStringBody rest with
        | some (s, r) => some (.str (String.mk s), r)
        | none => none
      else if c = lbrace then
        match skipWs rest with
        | [] => none
        | c2 :: r2 =>
          if c2 = rbrace then some (.obj [], r2)
          else
            match parseMembers fuel (c2 :: r2) with
            | some (ms, r3) => some (.obj ms, r3)
            | none => none
      else if c = '[' then
        match skipWs rest with
        | [] => none
        | c2 :: r2 =>
          if c2 = ']' then some (.arr [], r2)
          else
            match parseElems fuel (c2 :: r2) with
            | some (xs, r3) => some (.arr xs, r3)
            | none => none
      else if ['n', 'u', 'l', 'l'].isPrefixOf (c :: rest) then some (.null, rest.drop 3)
      else if ['t', 'r', 'u', 'e'].isPrefixOf (c :: rest) then some (.bool true, rest.drop 3)
      else if ['f', 'a', 'l', 's', 'e'].isPrefixOf (c :: rest) then some (.bool false, rest.drop 4)
      else if c = '-' || isDigitChar c then parseNum (c :: rest)
      else none

/-- Parse `value (, value)* ]`, the tail of a nonempty array. -/
def parseElems : Nat → List Char → Option (List JsonVal × List Char)
  | 0, _ => none
  | fuel + 1, input =>
    match parseVal fuel input with
    | none => none
    | some (v, r) =>
      match skipWs r with
      | [] => none
      | c :: r2 =>
        if c = ',' then
          match parseElems fuel r2 with
          | some (vs, r3) => some (v :: vs, r3)
          | none => none
        else if c = ']' then some ([v], r2)
        else none

/-- Parse `"key": value (, "key": value)* \x7d`, the tail of a nonempty
object. -/
def parseMembers : Nat → List Char → Option (List (String × JsonVal) × List Char)
  | 0, _ => none
  | fuel + 1, input =>
    match skipWs input with
    | [] => none
    | c :: rest =>
      if c = '"' then
        match parseStringBody rest with
        | none => none
        | some (k, r) =>
          match skipWs r with
          | [] => none
          | c2 :: r2 =>
            if c2 = ':' then
              match parseVal fuel r2 with
              | none => none
              | some (v, r3) =>
                match skipWs r3 with
                | [] => none
                | c4 :: r4 =>
                  if c4 = ',' then
                    match parseMembers fuel r4 with
                    | some (ms, r5) => some ((String.mk k, v) :: ms, r5)
                    | none => none
                  else if c4 = rbrace then some ([(String.mk k, v)], r4)
                  else none
            else none
      else none

end

/-- `json.loads`: parse one value and demand only whitespace after it. -/
def json_loads (s : String) : Option JsonVal :=
  match parseVal (s.length + 1) s.data with
  | some (v, rest) => if (skipWs rest).isEmpty then some v else none
  | none => none

/-! ## `extract_swagger_doc_from_js` -/

/-- The well-known assignment key. -/
def swaggerKey : List Char := ['s', 'w', 'a', 'g', 'g', 'e', 'r', 'D', 'o', 'c']

/-- `hay.find(needle)` on character lists: index of the first occurrence,
`none` when there is none. -/
def findSub (hay needle : List Char) : Option Nat :=
  if needle.isPrefixOf hay then some 0
  else
    match hay with
    | [] => none
    | _ :: t => (findSub t needle).map (· + 1)

/-- The brace-counting loop of `extract_swagger_doc_from_js`: walk the
characters accumulating them, `+1` on `\x7b`, `-1` on `\x7d`; when the
count returns to zero yield the accumulated slice; `none` when the input
ends first. -/
def braceLoop : List Char → Int → List Char → Option (List Char)
  | [], _, _ => none
  | c :: rest, count, acc =>
    if c = lbrace then braceLoop rest (count + 1) (acc ++ [c])
    else if c = rbrace then
      if count - 1 = 0 then some (acc ++ [c])
      else braceLoop rest (count - 1) (acc ++ [c])
    else braceLoop rest count (acc ++ [c])

/-- The extraction failures, named as the spec's taxonomy names them. -/
inductive ExtractErr where
  | keyNotFound
  | malformedEmbedding
  | unbalancedBraces
  | embeddedJsonParseError
deriving Repr, DecidableEq

/-- `extract_swagger_doc_from_js`: find the key, find the first opening
brace at or after it, take the brace-balanced slice, parse it as JSON. -/
def extract_swagger_doc_from_js (js_code : String) : Except ExtractErr JsonVal :=
  let chars := js_code.data
  match findSub chars swaggerKey with
  | none => .error .keyNotFound
  | some start_idx =>
    match (findSub (chars.drop start_idx) [lbrace]).map (· + start_idx) with
    | none => .error .malformedEmbedding
    | some brace_start =>
      match braceLoop (chars.drop brace_start) 0 [] with
      | none => .error .unbalancedBraces
      | some json_str =>
        match json_loads (String.mk json_str) with
        | none => .error .embeddedJsonParseError
        | some v => .ok v

/-! ## `get_openapi_spec` -/

/-- The transport's answer to the single GET for the spec: either a raised
`requests.RequestException` (network error, timeout), or a response with
its status code, declared content type and body text. -/
inductive HttpOutcome where
  | failure (msg : String)
  | response (status : Nat) (contentType : String) (body : String)

/-- Spec-acquisition failures, named as the spec's taxonomy names them. -/
inductive SpecError where
  | specFetchError
  | unsupportedSpecFormat (contentType : String)
  | extraction (e : ExtractErr)
deriving Repr, DecidableEq

/-- ASCII lowercase, as `.lower()` on header values. -/
def pyLower (s : String) : String := String.mk (s.data.map Char.toLower)

/-- `needle in hay` on strings. -/
def strContains (hay needle : String) : Bool :=
  (findSub hay.data needle.data).isSome

/-- `get_openapi_spec`, cut at the transport boundary. A raised
`RequestException` and a 4xx/5xx status (what `raise_for_status` raises,
as an `HTTPError`, itself a `RequestException`) both land in the
`except` clause and become the `RuntimeError` wrapper; a JSON body that
fails to parse raises `requests`' `JSONDecodeError`, also a
`RequestException`, so it lands there too. Extraction failures propagate
unwrapped. -/
def get_openapi_spec (r : HttpOutcome) : Except SpecError JsonVal :=
  match r with
  | .failure _ => .error .specFetchError
  | .response status ct body =>
    if 400 ≤ status ∧ status < 600 then .error .specFetchError
    else
      let content_type := pyLower ct
      if strContains content_type ("application/javascript") then
        match extract_swagger_doc_from_js body with
        | .ok v => .ok v
        | .error e => .error (.extraction e)
      else if strContains content_type ("application/json") then
        match json_loads body with
        | some v => .ok v
        | none => .error .specFetchError
      else .error (.unsupportedSpecFormat content_type)

/-! ## Lemmas about the identifier sanitizer -/

theorem allowedChar_hexChar (d : Nat) : allowedChar (hexChar d) = true := by
  unfold hexChar
  split <;> decide

theorem length_hexFoldr (l : List Nat) :
    (l.foldr (fun b acc => hexChar (b / 16 % 16) :: hexChar (b % 16) :: acc) []).length
      = 2 * l.length := by
  induction l with
  | nil => rfl
  | cons b rest ih => simp [List.foldr_cons, ih]; omega

theorem mem_hexFoldr (l : List Nat) (c : Char)
    (h : c ∈ l.foldr (fun b acc => hexChar (b / 16 % 16) :: hexChar (b % 16) :: acc) []) :
    allowedChar c = true := by
  induction l with
  | nil => simp at h
  | cons b rest ih =>
    simp only [List.foldr_cons, List.mem_cons] at h
    rcases h with h | h | h
    · rw [h]; exact allowedChar_hexChar _
    · rw [h]; exact allowedChar_hexChar _
    · exact ih h

theorem length_md5Digest (m : List Nat) : (md5Digest m).length = 16 := by
  simp [md5Digest, wordBytesLE]

theorem length_md5HexChars (m : List Nat) : (md5HexChars m).length = 32 := by
  rw [md5HexChars, length_hexFoldr, length_md5Digest]

theorem mem_md5HexChars (m : List Nat) (c : Char) (h : c ∈ md5HexChars m) :
    allowedChar c = true :=
  mem_hexFoldr _ _ h

theorem raw_name_data (method endpoint : String) :
    (method ++ "_" ++ cleanEndpoint endpoint).data
      = method.data ++ '_' :: (cleanEndpoint endpoint).data := by
  rw [String.data_append, String.data_append]
  simp [List.append_assoc]

/-- C1-C10 claim theorems are stated below; helper lemmas precede them. -/
theorem filter_raw_name (method endpoint : String) :
    (method ++ "_" ++ cleanEndpoint endpoint).data.filter allowedChar
      = method.data.filter allowedChar
          ++ '_' :: (cleanEndpoint endpoint).data.filter allowedChar := by
  rw [raw_name_data, List.filter_append, List.filter_cons]
  simp [show allowedChar '_' = true from by decide]

/-- C2, amended: `sanitize_tool_name` is deterministic, its output matches
`^[A-Za-z0-9_-]{1,64}$`, the cleaned (pre-truncation) name is the
character-filtered method — kept as written, not lowercased — followed by
`_` and the cleaned path, and a cleaned name longer than 64 characters is
truncated to its first 55 characters plus `_` plus the first 8 hex
characters of the MD5 content hash of the whole cleaned name. -/
theorem sanitize_tool_name_shape (method endpoint : String) :
    sanitize_tool_name method endpoint = sanitize_tool_name method endpoint ∧
    (sanitize_tool_name method endpoint).data.all allowedChar = true ∧
    1 ≤ (sanitize_tool_name method endpoint).length ∧
    (sanitize_tool_name method endpoint).length ≤ 64 ∧
    (method ++ "_" ++ cleanEndpoint endpoint).data.filter allowedChar
      = method.data.filter allowedChar
          ++ '_' :: (cleanEndpoint endpoint).data.filter allowedChar ∧
    sanitize_tool_name method endpoint =
      (if 64 < ((method ++ "_" ++ cleanEndpoint endpoint).data.filter allowedChar).length then
        String.mk (((method ++ "_" ++ cleanEndpoint endpoint).data.filter allowedChar).take 55)
          ++ "_" ++ String.mk ((md5HexChars (((method ++ "_" ++
              cleanEndpoint endpoint).data.filter allowedChar).map Char.toNat)).take 8)
      else String.mk ((method ++ "_" ++ cleanEndpoint endpoint).data.filter allowedChar)) := by
  have husc : '_' ∈ (method ++ "_" ++ cleanEndpoint endpoint).data.filter allowedChar := by
    rw [filter_raw_name]
    exact List.mem_append_right _ (List.mem_cons_self _ _)
  have hEq : sanitize_tool_name method endpoint =
      (if 64 < ((method ++ "_" ++ cleanEndpoint endpoint).data.filter allowedChar).length then
        String.mk (((method ++ "_" ++ cleanEndpoint endpoint).data.filter allowedChar).take 55)
          ++ "_" ++ String.mk ((md5HexChars (((method ++ "_" ++
              cleanEndpoint endpoint).data.filter allowedChar).map Char.toNat)).take 8)
      else String.mk ((method ++ "_" ++ cleanEndpoint endpoint).data.filter allowedChar)) := rfl
  set L := (method ++ "_" ++ cleanEndpoint endpoint).data.filter allowedChar with hLdef
  refine ⟨rfl, ?_, ?_, ?_, filter_raw_name method endpoint, rfl⟩
  · -- every output character is allowed
    rw [hEq]
    by_cases h : 64 < L.length
    · rw [if_pos h, List.all_eq_true]
      intro c hc
      rw [String.data_append, String.data_append] at hc
      simp only [List.mem_append, List.mem_cons] at hc
      rcases hc with (hc | hc | hc) | hc
      · exact (List.mem_filter.mp (List.take_subset _ _ hc)).2
      · rw [hc]; decide
      · simp at hc
      · exact mem_md5HexChars _ _ (List.take_subset _ _ hc)
    · rw [if_neg h, List.all_eq_true]
      intro c hc
      exact (List.mem_filter.mp hc).2
  · -- the output is nonempty
    rw [hEq]
    by_cases h : 64 < L.length
    · rw [if_pos h]
      have : 0 < ("_" : String).length := by decide
      rw [String.length_append, String.length_append]
      omega
    · rw [if_neg h, String.length_mk]
      exact List.length_pos.mpr (List.ne_nil_of_mem husc)
  · -- the output has at most 64 characters
    rw [hEq]
    by_cases h : 64 < L.length
    · rw [if_pos h]
      simp only [String.length_append, String.length_mk, List.length_take,
        length_md5HexChars]
      have h1 : ("_" : String).length = 1 := rfl
      omega
    · rw [if_neg h, String.length_mk]
      omega

/-- C2, counterexample: the code never lowercases the method, so for an
uppercase method string the output is not the lowercase method followed by
`_` and the cleaned path as the claim states. -/
theorem sanitize_tool_name_keeps_case :
    sanitize_tool_name ("GET") ("/pets") = "GET_pets" ∧
    sanitize_tool_name ("GET") ("/pets")
      ≠ pyLower ("GET") ++ "_"
          ++ String.mk ((cleanEndpoint ("/pets")).data.filter allowedChar) := by
  constructor <;> decide

/-! ## Lemmas about the parameter resolver -/

/-- The `name` entry of a parameter dict, when it is a string. -/
def paramName? (p : JsonVal) : Option String :=
  match pyDictGet p ("name") with
  | some (.str s) => some s
  | _ => none

theorem pyGetItem_ok {v : JsonVal} {k : String} {x : JsonVal}
    (h : pyGetItem v k = .ok x) : pyDictGet v k = some x := by
  cases v <;> simp [pyGetItem, pyDictGet] at h ⊢ <;> try exact h.elim
  rename_i kvs
  cases hl : objLookup kvs k <;> rw [hl] at h <;> simp at h
  rw [h]

theorem objLookup_append (a b : List (String × JsonVal)) (k : String) :
    objLookup (a ++ b) k =
      match objLookup a k with
      | some v => some v
      | none => objLookup b k := by
  induction a with
  | nil => simp [objLookup]
  | cons kv rest ih =>
    rcases kv with ⟨k1, v1⟩
    by_cases h : k1 = k <;> simp [objLookup, h, ih]

theorem objLookup_mem {l : List (String × JsonVal)} {k : String} {v : JsonVal}
    (h : objLookup l k = some v) : (k, v) ∈ l := by
  induction l with
  | nil => simp [objLookup] at h
  | cons kv rest ih =>
    rcases kv with ⟨k1, v1⟩
    by_cases hk : k1 = k
    · subst hk
      simp [objLookup] at h
      simp [h]
    · simp [objLookup, hk] at h
      exact List.mem_cons_of_mem _ (ih h)

/-- Structure of a successful `parse_parameters` run: the argument list is
the sanitized parameter names in their original order, every recorded
default is the absent sentinel, every parameter whose `required` entry is
absent or falsy has its default recorded, and every parameter had a string
`name` entry. -/
theorem parse_parameters_spec :
    ∀ (ps : List JsonVal) (args : List String) (defaults : List (String × JsonVal)),
      parse_parameters ps = .ok (args, defaults) →
      args = ps.map (fun p => sanitize_name ((paramName? p).getD "")) ∧
      (∀ kv ∈ defaults, kv.2 = JsonVal.null) ∧
      (∀ p ∈ ps, ∀ s : String, paramName? p = some s →
        pyTruthy (pyDictGetD p ("required") (.bool false)) = false →
        (sanitize_name s, JsonVal.null) ∈ defaults) ∧
      (∀ p ∈ ps, (paramName? p).isSome = true) := by
  intro ps
  induction ps with
  | nil =>
    intro args defaults h
    simp [parse_parameters] at h
    simp [h.1, h.2]
  | cons p rest ih =>
    intro args defaults h
    simp only [parse_parameters, bind, Except.bind] at h
    cases hname : pyGetItem p ("name") with
    | error e => rw [hname] at h; exact absurd h (by simp)
    | ok nameVal =>
      rw [hname] at h
      dsimp only at h
      cases hstr : pyExpectStr nameVal with
      | error e => rw [hstr] at h; exact absurd h (by simp)
      | ok s =>
        rw [hstr] at h
        dsimp only at h
        obtain ⟨ty, hty⟩ : ∃ ty, resolved_param_type p = .ok ty := by
          cases hty : resolved_param_type p with
          | error e => rw [hty] at h; exact absurd h (by simp)
          | ok ty => exact ⟨ty, rfl⟩
        rw [hty] at h
        dsimp only at h
        cases hrec : parse_parameters rest with
        | error e => rw [hrec] at h; exact absurd h (by simp)
        | ok pr =>
          rcases pr with ⟨args', defaults'⟩
          rw [hrec] at h
          dsimp only at h
          have hnv : nameVal = .str s := by
            cases nameVal <;> simp [pyExpectStr] at hstr <;> try exact hstr.elim
            rw [hstr]
          have hpn : paramName? p = some s := by
            rw [paramName?, pyGetItem_ok hname, hnv]
          obtain ⟨ih1, ih2, ih3, ih4⟩ := ih args' defaults' hrec
          by_cases hreq : pyTruthy (pyDictGetD p ("required") (.bool false)) = true
          · rw [if_pos hreq] at h
            simp only [Except.ok.injEq, Prod.mk.injEq] at h
            obtain ⟨ha, hd⟩ := h
            subst ha; subst hd
            refine ⟨by simp [hpn, ih1], ih2, ?_, ?_⟩
            · intro q hq t hqt hreqf
              rcases List.mem_cons.mp hq with hq | hq
              · subst hq; rw [hpn] at hqt
                injection hqt with hts
                subst hts
                rw [hreq] at hreqf
                exact absurd hreqf (by simp)
              · exact ih3 q hq t hqt hreqf
            · intro q hq
              rcases List.mem_cons.mp hq with hq | hq
              · subst hq; simp [hpn]
              · exact ih4 q hq
          · rw [if_neg hreq] at h
            simp only [Except.ok.injEq, Prod.mk.injEq] at h
            obtain ⟨ha, hd⟩ := h
            subst ha; subst hd
            refine ⟨by simp [hpn, ih1], ?_, ?_, ?_⟩
            · intro kv hkv
              rcases List.mem_cons.mp hkv with hkv | hkv
              · rw [hkv]
              · exact ih2 kv hkv
            · intro q hq t hqt hreqf
              rcases List.mem_cons.mp hq with hq | hq
              · subst hq
                rw [hpn] at hqt
                injection hqt with hts
                subst hts
                exact List.mem_cons_self _ _
              · exact List.mem_cons_of_mem _ (ih3 q hq t hqt hreqf)
            · intro q hq
              rcases List.mem_cons.mp hq with hq | hq
              · subst hq; simp [hpn]
              · exact ih4 q hq

theorem pyGetItem_of_get {v : JsonVal} {k : String} {x : JsonVal}
    (h : pyDictGet v k = some x) : pyGetItem v k = .ok x := by
  cases v <;> simp [pyDictGet] at h
  rename_i kvs
  simp [pyGetItem, h]

theorem parse_parameters_total :
    ∀ ps : List JsonVal,
      (∀ p ∈ ps, ∃ s : String, pyDictGet p ("name") = some (.str s)) →
      (∀ p ∈ ps, ∃ t, resolved_param_type p = .ok t) →
      ∃ args defaults, parse_parameters ps = .ok (args, defaults) := by
  intro ps
  induction ps with
  | nil => exact fun _ _ => ⟨[], [], rfl⟩
  | cons p rest ih =>
    intro h hh
    obtain ⟨s, hs⟩ := h p (List.mem_cons_self _ _)
    obtain ⟨t, ht⟩ := hh p (List.mem_cons_self _ _)
    obtain ⟨args, defaults, hok⟩ := ih
      (fun q hq => h q (List.mem_cons_of_mem _ hq))
      (fun q hq => hh q (List.mem_cons_of_mem _ hq))
    refine ⟨sanitize_name s :: args,
      if pyTruthy (pyDictGetD p ("required") (.bool false)) = true then defaults
      else (sanitize_name s, JsonVal.null) :: defaults, ?_⟩
    simp only [parse_parameters, bind, Except.bind, pyGetItem_of_get hs]
    rw [show pyExpectStr (.str s) = .ok s from rfl]
    dsimp only
    rw [ht]
    dsimp only
    rw [hok]
    dsimp only
    by_cases hreq : pyTruthy (pyDictGetD p ("required") (.bool false)) = true <;>
      simp [hreq]

/-- C5, amended: the resolver is not failure-free; it succeeds for every
parameter list whose entries carry a string `name` and a well-formed type
hint (the `schema` entry, when truthy and consulted, is a dict). Then an
absent `required` entry makes the argument optional with the
absent-sentinel default, and an absent type hint (no `type`, no `schema`)
resolves to the generic `"str"` marker. Outside that domain resolution
raises: `KeyError` on an entry without `name`, `AttributeError` on a
truthy non-dict `schema` (see the counterexample). -/
theorem parse_parameters_defensive (ps : List JsonVal)
    (h : ∀ p ∈ ps, ∃ s : String, pyDictGet p ("name") = some (.str s))
    (hhint : ∀ p ∈ ps, ∃ t, resolved_param_type p = .ok t) :
    (∃ args defaults, parse_parameters ps = .ok (args, defaults) ∧
      ∀ p ∈ ps, ∀ s : String, paramName? p = some s →
        pyDictGet p ("required") = none →
        (sanitize_name s, JsonVal.null) ∈ defaults) ∧
    (∀ p : JsonVal, pyDictGet p ("type") = none → pyDictGet p ("schema") = none →
      resolved_param_type p = .ok (.str ("str"))) := by
  constructor
  · obtain ⟨args, defaults, hok⟩ := parse_parameters_total ps h hhint
    obtain ⟨_, _, h3, _⟩ := parse_parameters_spec ps args defaults hok
    refine ⟨args, defaults, hok, fun p hp s hs hreq => h3 p hp s hs ?_⟩
    rw [pyDictGetD, hreq]
    rfl
  · intro p h1 h2
    have hnil : pyDictGet (JsonVal.obj []) ("type") = none := rfl
    simp [resolved_param_type, pyDictGetD, h1, h2, pyTruthy, hnil]

/-- C5, witness: a parameter named `x-id` with no `required` and no type
hint resolves successfully. -/
theorem parse_parameters_defensive_witness :
    (parse_parameters [JsonVal.obj [(("name"), JsonVal.str ("x-id"))]]).isOk = true := by
  obtain ⟨⟨args, defaults, hok, _⟩, _⟩ := parse_parameters_defensive
    [JsonVal.obj [(("name"), JsonVal.str ("x-id"))]]
    (by
      intro p hp
      simp only [List.mem_singleton] at hp
      subst hp
      exact ⟨"x-id", rfl⟩)
    (by
      intro p hp
      simp only [List.mem_singleton] at hp
      subst hp
      exact ⟨JsonVal.str ("str"), by decide⟩)
  rw [hok]
  rfl

/-- C5, counterexample: the resolver is not failure-free — a parameter
dict without a `name` entry raises `KeyError`, and even an entry carrying
a string `name` raises `AttributeError` when its `schema` entry is a
truthy non-dict, because the discarded type-hint line calls `.get` on
it. -/
theorem parse_parameters_missing_name_raises :
    parse_parameters [JsonVal.obj []] = .error (PyErr.keyError ("name")) ∧
    parse_parameters [JsonVal.obj [(("name"), JsonVal.str ("x")),
        (("schema"), JsonVal.str ("s"))]]
      = .error (PyErr.attributeError ("get called on a non-dict schema")) := by
  constructor
  · decide
  · decide

/-! ## Lemmas about signature synthesis (`build_func`) -/

/-- The claim-side condition of C6: a request body is present (truthy) and
declares `application/json` content. -/
def hasJsonBody (operation : JsonVal) : Bool :=
  pyTruthy (pyDictGetD operation ("requestBody") .null) &&
    pyHasKey (pyDictGetD (pyDictGetD operation ("requestBody") .null) ("content") (.obj []))
      ("application/json")

/-- Case split of `build_func_args`: the result is the plain resolver
output with the synthetic `body` argument and default appended exactly
when a truthy request body declares `application/json` content. -/
theorem build_func_args_split (operation : JsonVal) (ps : List JsonVal)
    (args : List String) (defaults : List (String × JsonVal))
    (hps : pyDictGetD operation ("parameters") (.arr []) = .arr ps)
    (hok : build_func_args operation = .ok (args, defaults)) :
    ∃ args0 defaults0, parse_parameters ps = .ok (args0, defaults0) ∧
      args = args0 ++ (if hasJsonBody operation then [("body" : String)] else []) ∧
      defaults = defaults0
        ++ (if hasJsonBody operation then [(("body" : String), JsonVal.null)] else []) := by
  rw [build_func_args, hps] at hok
  simp only [bind, Except.bind, pyExpectArr] at hok
  by_cases htr : pyTruthy (pyDictGetD operation ("requestBody") .null) = true
  · rw [if_pos htr] at hok
    by_cases hct : pyHasKey
        (pyDictGetD (pyDictGetD operation ("requestBody") .null) ("content") (.obj []))
        ("application/json") = true
    · rw [if_pos hct] at hok
      have hjb : hasJsonBody operation = true := by
        rw [hasJsonBody, htr, hct]
        rfl
      cases hrec : parse_parameters ps with
      | error e => rw [hrec] at hok; exact absurd hok (by simp)
      | ok pr =>
        rcases pr with ⟨args0, defaults0⟩
        rw [hrec] at hok
        dsimp only at hok
        simp only [Except.ok.injEq, Prod.mk.injEq] at hok
        obtain ⟨ha, hd⟩ := hok
        subst ha
        subst hd
        exact ⟨args0, defaults0, rfl, by rw [hjb]; simp, by rw [hjb]; simp⟩
    · rw [if_neg hct] at hok
      have hjb : hasJsonBody operation = false := by
        rw [hasJsonBody, htr]
        simp at hct
        rw [hct]
        rfl
      exact ⟨args, defaults, hok, by rw [hjb]; simp, by rw [hjb]; simp⟩
  · rw [if_neg htr] at hok
    have hjb : hasJsonBody operation = false := by
      rw [hasJsonBody]
      simp at htr
      rw [htr]
      rfl
    exact ⟨args, defaults, hok, by rw [hjb]; simp, by rw [hjb]; simp⟩

/-- C6: a successful signature synthesis yields the parameters' sanitized
names in their original order, with the synthetic `body` argument appended
last exactly when a truthy request body declares `application/json`
content; that `body` argument always carries the absent-sentinel
default. -/
theorem build_func_args_order (operation : JsonVal) (ps : List JsonVal)
    (args : List String) (defaults : List (String × JsonVal))
    (hps : pyDictGetD operation ("parameters") (.arr []) = .arr ps)
    (hok : build_func_args operation = .ok (args, defaults)) :
    args = ps.map (fun p => sanitize_name ((paramName? p).getD ""))
        ++ (if hasJsonBody operation then [("body" : String)] else []) ∧
    (hasJsonBody operation = true → objLookup defaults ("body") = some JsonVal.null) := by
  obtain ⟨args0, defaults0, hrec, ha, hd⟩ :=
    build_func_args_split operation ps args defaults hps hok
  obtain ⟨h1, h2, _, _⟩ := parse_parameters_spec ps args0 defaults0 hrec
  subst ha
  subst hd
  refine ⟨by rw [h1], fun hjb => ?_⟩
  rw [hjb, if_pos rfl, objLookup_append]
  cases hl : objLookup defaults0 ("body") with
  | none => rfl
  | some v =>
    have := h2 _ (objLookup_mem hl)
    simp at this
    rw [this]

/-- An operation with one hyphenated required parameter and a JSON request
body, for the C6 witness. -/
def c6Operation : JsonVal :=
  .obj [(("parameters"), .arr [.obj [(("name"), .str ("a-b")), (("required"), .bool true)]]),
        (("requestBody"), .obj [(("content"), .obj [(("application/json"), .obj [])])])]

/-- C6, witness: the synthesized arguments for `c6Operation` are the
sanitized parameter name followed by the optional `body`. -/
theorem build_func_args_order_witness :
    (["a_b", "body"] : List String)
      = [JsonVal.obj [(("name"), JsonVal.str ("a-b")), (("required"), JsonVal.bool true)]].map
          (fun p => sanitize_name ((paramName? p).getD ""))
        ++ (if hasJsonBody c6Operation then [("body" : String)] else []) ∧
    objLookup [(("body"), JsonVal.null)] ("body") = some JsonVal.null := by
  have h := build_func_args_order c6Operation
    [JsonVal.obj [(("name"), JsonVal.str ("a-b")), (("required"), JsonVal.bool true)]]
    ["a_b", "body"] [(("body"), JsonVal.null)] (by decide) (by decide)
  exact ⟨h.1, h.2 (by decide)⟩

/-! ## Lemmas about invocation-time request construction (`api_tool`) -/

theorem objLookup_mapReplace (d : List (String × JsonVal)) (k n : String) (v : JsonVal)
    (h : k ≠ n) :
    objLookup (d.map (fun kv => if kv.1 = k then (k, v) else kv)) n = objLookup d n := by
  induction d with
  | nil => rfl
  | cons kv rest ih =>
    rcases kv with ⟨k1, v1⟩
    by_cases hk1 : k1 = k
    · subst hk1
      have hm : List.map (fun kv => if kv.1 = k1 then (k1, v) else kv) ((k1, v1) :: rest)
          = (k1, v) :: List.map (fun kv => if kv.1 = k1 then (k1, v) else kv) rest := by
        simp
      rw [hm, objLookup, objLookup, if_neg h, if_neg h]
      exact ih
    · have hm : List.map (fun kv => if kv.1 = k then (k, v) else kv) ((k1, v1) :: rest)
          = (k1, v1) :: List.map (fun kv => if kv.1 = k then (k, v) else kv) rest := by
        simp [hk1]
      rw [hm, objLookup, objLookup]
      by_cases hn : k1 = n
      · rw [if_pos hn, if_pos hn]
      · rw [if_neg hn, if_neg hn]
        exact ih

theorem objLookup_dictInsert_ne (d : List (String × JsonVal)) (k n : String) (v : JsonVal)
    (h : k ≠ n) : objLookup (dictInsert d k v) n = objLookup d n := by
  rw [dictInsert]
  by_cases hs : (objLookup d k).isSome
  · rw [if_pos hs]
    exact objLookup_mapReplace d k n v h
  · rw [if_neg hs, objLookup_append]
    cases objLookup d n with
    | some w => rfl
    | none => simp [objLookup, h]

/-- An argument whose looked-up value is the absent sentinel leaves all
three location maps untouched across the collection loop. -/
theorem collect_params_untouched :
    ∀ (params : List JsonVal) (kwargs : Kwargs)
      (pp qp hd pp' qp' hd' : List (String × JsonVal)),
      collect_params kwargs params pp qp hd = .ok (pp', qp', hd') →
      ∀ n : String, kwGet kwargs (sanitize_name n) = JsonVal.null →
        objLookup pp' n = objLookup pp n ∧ objLookup qp' n = objLookup qp n ∧
        objLookup hd' n = objLookup hd n := by
  intro params
  induction params with
  | nil =>
    intro kwargs pp qp hd pp' qp' hd' h n hn
    simp only [collect_params, Except.ok.injEq, Prod.mk.injEq] at h
    rw [← h.1, ← h.2.1, ← h.2.2]
    exact ⟨rfl, rfl, rfl⟩
  | cons param rest ih =>
    intro kwargs pp qp hd pp' qp' hd' h n hn
    simp only [collect_params, bind, Except.bind] at h
    cases hname : pyGetItem param ("name") with
    | error e => rw [hname] at h; exact absurd h (by simp)
    | ok nameVal =>
      rw [hname] at h
      dsimp only at h
      cases hstr : pyExpectStr nameVal with
      | error e => rw [hstr] at h; exact absurd h (by simp)
      | ok raw_name =>
        rw [hstr] at h
        dsimp only at h
        by_cases hval : kwGet kwargs (sanitize_name raw_name) = JsonVal.null
        · rw [if_pos hval] at h
          exact ih kwargs pp qp hd pp' qp' hd' h n hn
        · rw [if_neg hval] at h
          have hraw : raw_name ≠ n := by
            intro he
            rw [he] at hval
            exact hval hn
          by_cases hp : pyDictGetD param ("in") (.str ("query")) = .str ("path")
          · rw [if_pos hp] at h
            obtain ⟨h1, h2, h3⟩ := ih kwargs _ qp hd pp' qp' hd' h n hn
            exact ⟨by rw [h1, objLookup_dictInsert_ne _ _ _ _ hraw], h2, h3⟩
          · rw [if_neg hp] at h
            by_cases hq : pyDictGetD param ("in") (.str ("query")) = .str ("query")
            · rw [if_pos hq] at h
              obtain ⟨h1, h2, h3⟩ := ih kwargs pp _ hd pp' qp' hd' h n hn
              exact ⟨h1, by rw [h2, objLookup_dictInsert_ne _ _ _ _ hraw], h3⟩
            · rw [if_neg hq] at h
              by_cases hh : pyDictGetD param ("in") (.str ("query")) = .str ("header")
              · rw [if_pos hh] at h
                obtain ⟨h1, h2, h3⟩ := ih kwargs pp qp _ pp' qp' hd' h n hn
                exact ⟨h1, h2, by rw [h3, objLookup_dictInsert_ne _ _ _ _ hraw]⟩
              · rw [if_neg hh] at h
                exact ih kwargs pp qp hd pp' qp' hd' h n hn

/-- The operation of the spec's invocation scenario: one required path
parameter `id` and one optional query parameter `limit`. -/
def c7Operation : JsonVal :=
  .obj [(("summary"), .str ("Find item")),
        (("parameters"), .arr [
          .obj [(("name"), .str ("id")), (("in"), .str ("path")),
                (("required"), .bool true)],
          .obj [(("name"), .str ("limit")), (("in"), .str ("query")),
                (("required"), .bool false)]])]

/-- C7: invoking the `id`/`limit` tool with only `id="5"` substitutes the
path to `/items/5` and produces an empty query map (no `limit` entry of
any kind); in general an argument resolving to the absent sentinel
appears in none of the path, query or header maps, and an absent `body`
sends no payload. -/
theorem api_tool_skips_absent_arguments :
    (api_tool ("/items/\x7bid\x7d") ("get") c7Operation [(("id"), JsonVal.str ("5"))]
      = .ok { method := "get", path := "/items/5", body := JsonVal.null,
              queryParams := [], headers := [] }) ∧
    (∀ (params : List JsonVal) (kwargs : Kwargs)
        (pp' qp' hd' : List (String × JsonVal)),
      collect_params kwargs params [] [] [] = .ok (pp', qp', hd') →
      ∀ n : String, kwGet kwargs (sanitize_name n) = JsonVal.null →
        objLookup pp' n = none ∧ objLookup qp' n = none ∧ objLookup hd' n = none) ∧
    (∀ (endpoint method : String) (operation : JsonVal) (kwargs : Kwargs)
        (rd : RequestData),
      api_tool endpoint method operation kwargs = .ok rd →
      kwGet kwargs ("body") = JsonVal.null → rd.body = JsonVal.null) := by
  refine ⟨by decide, ?_, ?_⟩
  · intro params kwargs pp' qp' hd' h n hn
    exact collect_params_untouched params kwargs [] [] [] pp' qp' hd' h n hn
  · intro endpoint method operation kwargs rd hok hbody
    simp only [api_tool, bind, Except.bind] at hok
    cases hps : pyExpectArr (pyDictGetD operation ("parameters") (.arr [])) with
    | error e => rw [hps] at hok; exact absurd hok (by simp)
    | ok params =>
      rw [hps] at hok
      dsimp only at hok
      cases hcp : collect_params kwargs params [] [] [] with
      | error e => rw [hcp] at hok; exact absurd hok (by simp)
      | ok triple =>
        rcases triple with ⟨pp, qp, hd⟩
        rw [hcp] at hok
        dsimp only at hok
        simp only [Except.ok.injEq] at hok
        rw [← hok]
        by_cases hc : (pyTruthy (pyDictGetD operation ("requestBody") .null)
            && kwHas kwargs ("body")) = true
        · simp [hc, hbody]
        · simp [hc]

/-- An operation whose request body declares only `application/xml`
content, for C10. -/
def c10Operation : JsonVal :=
  .obj [(("parameters"), .arr []),
        (("requestBody"), .obj [(("content"), .obj [(("application/xml"), .obj [])])])]

/-- C10: a non-JSON request body synthesizes no `body` argument, yet a
non-absent `body` keyword argument is still sent verbatim as the payload,
because the invocation-time check looks only at the presence of a truthy
request body, never at its content type. -/
theorem api_tool_body_passthrough_non_json :
    (build_func_args c10Operation = .ok ([], []) ∧
     api_tool ("/things") ("post") c10Operation [(("body"), JsonVal.str ("payload"))]
       = .ok { method := "post", path := "/things", body := JsonVal.str ("payload"),
               queryParams := [], headers := [] }) ∧
    (∀ (operation : JsonVal) (ps : List JsonVal) (args : List String)
        (defaults : List (String × JsonVal)),
      pyDictGetD operation ("parameters") (.arr []) = .arr ps →
      build_func_args operation = .ok (args, defaults) →
      hasJsonBody operation = false →
      args = ps.map (fun p => sanitize_name ((paramName? p).getD ""))) ∧
    (∀ (endpoint method : String) (operation : JsonVal) (kwargs : Kwargs)
        (rd : RequestData),
      pyTruthy (pyDictGetD operation ("requestBody") .null) = true →
      kwHas kwargs ("body") = true →
      api_tool endpoint method operation kwargs = .ok rd →
      rd.body = kwGet kwargs ("body")) := by
  refine ⟨⟨by decide, by decide⟩, ?_, ?_⟩
  · intro operation ps args defaults hps hok hjb
    obtain ⟨args0, defaults0, hrec, ha, _⟩ :=
      build_func_args_split operation ps args defaults hps hok
    obtain ⟨h1, _, _, _⟩ := parse_parameters_spec ps args0 defaults0 hrec
    rw [ha, hjb]
    simp [h1]
  · intro endpoint method operation kwargs rd htr hhas hok
    simp only [api_tool, bind, Except.bind] at hok
    cases hps : pyExpectArr (pyDictGetD operation ("parameters") (.arr [])) with
    | error e => rw [hps] at hok; exact absurd hok (by simp)
    | ok params =>
      rw [hps] at hok
      dsimp only at hok
      cases hcp : collect_params kwargs params [] [] [] with
      | error e => rw [hcp] at hok; exact absurd hok (by simp)
      | ok triple =>
        rcases triple with ⟨pp, qp, hd⟩
        rw [hcp] at hok
        dsimp only at hok
        simp only [Except.ok.injEq] at hok
        rw [← hok]
        simp [htr, hhas]

/-- C1, the code at the failing input: invoking the `id`/`limit` tool with
no arguments does not fail — it hands the transport a request whose path
still contains the literal placeholder text, so a network call is
performed with a malformed URL instead of a `MissingRequiredParameter`
failure. -/
theorem api_tool_missing_required_path_param :
    api_tool ("/items/\x7bid\x7d") ("get") c7Operation []
      = .ok { method := "get", path := "/items/\x7bid\x7d", body := JsonVal.null,
              queryParams := [], headers := [] } := by decide

/-! ## The end-to-end registration scenario and the spec acquirer -/

/-- The spec document of the end-to-end scenario (C9). -/
def petstoreSpecDoc : JsonVal :=
  .obj [(("paths"), .obj [(("/pet/\x7bpetId\x7d"), .obj [(("get"), .obj [
    (("summary"), .str ("Find pet")),
    (("parameters"), .arr [.obj [(("name"), .str ("petId")), (("in"), .str ("path")),
      (("required"), .bool true)]])])])])]

/-- C9: registering the scenario document registers exactly one tool,
named `get_pet_petId`, whose call signature has exactly the single
required argument `petId` (and no optional arguments, so no defaults). -/
theorem register_all_tools_pet_scenario :
    register_all_tools petstoreSpecDoc
      = .ok [{ name := "get_pet_petId", description := JsonVal.str ("Find pet"),
               required := ["petId"], optional := [] }] := by decide

/-- C8, counterexample: a 304 response with a JSON body is a non-2xx
status, yet the acquirer does not fail with `SpecFetchError` — it falls
through `raise_for_status` (which only raises on 4xx/5xx) and parses the
body successfully. -/
theorem get_openapi_spec_304_not_fetch_error :
    get_openapi_spec (.response 304 ("application/json") ("\x7b\x7d"))
      = .ok (JsonVal.obj []) ∧
    ¬ (200 ≤ 304 ∧ 304 < 300) ∧
    get_openapi_spec (.response 304 ("application/json") ("\x7b\x7d"))
      ≠ .error SpecError.specFetchError := by
  refine ⟨by decide, by decide, by decide⟩

/-- C8, amended: the acquirer fails with `SpecFetchError` on a raised
transport exception (network error, timeout) and on a 4xx/5xx status —
not on every non-2xx status; otherwise it dispatches on the declared
content type: a JavaScript content type routes the body to the embedded
extractor, a JSON content type parses the body directly, and any other
content type fails with `UnsupportedSpecFormat` carrying the observed
(lowercased) content type. -/
theorem get_openapi_spec_branches :
    (∀ msg : String, get_openapi_spec (.failure msg) = .error .specFetchError) ∧
    (∀ (status : Nat) (ct body : String), 400 ≤ status → status < 600 →
      get_openapi_spec (.response status ct body) = .error .specFetchError) ∧
    (∀ (status : Nat) (ct body : String), ¬(400 ≤ status ∧ status < 600) →
      strContains (pyLower ct) ("application/javascript") = true →
      get_openapi_spec (.response status ct body) =
        match extract_swagger_doc_from_js body with
        | .ok v => .ok v
        | .error e => .error (.extraction e)) ∧
    (∀ (status : Nat) (ct body : String), ¬(400 ≤ status ∧ status < 600) →
      strContains (pyLower ct) ("application/javascript") = false →
      strContains (pyLower ct) ("application/json") = true →
      get_openapi_spec (.response status ct body) =
        match json_loads body with
        | some v => .ok v
        | none => .error .specFetchError) ∧
    (∀ (status : Nat) (ct body : String), ¬(400 ≤ status ∧ status < 600) →
      strContains (pyLower ct) ("application/javascript") = false →
      strContains (pyLower ct) ("application/json") = false →
      get_openapi_spec (.response status ct body)
        = .error (.unsupportedSpecFormat (pyLower ct))) := by
  refine ⟨fun msg => rfl, ?_, ?_, ?_, ?_⟩
  · intro status ct body h1 h2
    rw [get_openapi_spec, if_pos ⟨h1, h2⟩]
  · intro status ct body hs hjs
    rw [get_openapi_spec, if_neg hs]
    simp only [hjs, if_true]
  · intro status ct body hs hjs hjson
    rw [get_openapi_spec, if_neg hs]
    simp only [hjs, hjson, Bool.false_eq_true, if_false, if_true]
  · intro status ct body hs hjs hjson
    rw [get_openapi_spec, if_neg hs]
    simp only [hjs, hjson, Bool.false_eq_true, if_false]

/-! ## Characterizing the embedded-JSON extractor (C3, C4) -/

theorem findSub_none_iff (needle : List Char) :
    ∀ hay : List Char,
      (findSub hay needle = none ↔ ∀ i, needle.isPrefixOf (hay.drop i) = false) := by
  intro hay
  induction hay with
  | nil =>
    rw [findSub]
    cases hp : needle.isPrefixOf [] with
    | true =>
      simp only [if_pos rfl]
      constructor
      · intro h; exact absurd h (by simp)
      · intro h
        have := h 0
        rw [List.drop_nil] at this
        rw [hp] at this
        exact absurd this (by simp)
    | false =>
      simp only [Bool.false_eq_true, if_false]
      constructor
      · intro _ i
        rw [List.drop_nil, hp]
      · intro _
        trivial
  | cons c t ih =>
    rw [findSub]
    cases hp : needle.isPrefixOf (c :: t) with
    | true =>
      simp only [if_pos rfl]
      constructor
      · intro h; exact absurd h (by simp)
      · intro h
        have := h 0
        rw [List.drop_zero, hp] at this
        exact absurd this (by simp)
    | false =>
      simp only [Bool.false_eq_true, if_false]
      constructor
      · intro h i
        have ht : findSub t needle = none := by
          cases hf : findSub t needle with
          | none => rfl
          | some j => rw [hf] at h; exact absurd h (by simp)
        cases i with
        | zero => rw [List.drop_zero]; exact hp
        | succ i => exact (ih.mp ht) i
      · intro h
        have ht : findSub t needle = none := ih.mpr (fun i => h (i + 1))
        rw [ht]
        rfl

theorem findSub_some_iff (needle : List Char) :
    ∀ (hay : List Char) (i : Nat),
      (findSub hay needle = some i ↔
        needle.isPrefixOf (hay.drop i) = true ∧
          ∀ j, j < i → needle.isPrefixOf (hay.drop j) = false) := by
  intro hay
  induction hay with
  | nil =>
    intro i
    rw [findSub]
    cases hp : needle.isPrefixOf [] with
    | true =>
      simp only [if_pos rfl]
      constructor
      · intro h
        have hi : i = 0 := by
          have := h
          simp at this
          omega
        subst hi
        exact ⟨by rw [List.drop_nil]; exact hp, by omega⟩
      · intro ⟨h1, h2⟩
        cases i with
        | zero => rfl
        | succ k =>
          have := h2 0 (by omega)
          rw [List.drop_nil, hp] at this
          exact absurd this (by simp)
    | false =>
      simp only [Bool.false_eq_true, if_false]
      constructor
      · intro h; exact absurd h (by simp)
      · intro ⟨h1, _⟩
        rw [List.drop_nil, hp] at h1
        exact absurd h1 (by simp)
  | cons c t ih =>
    intro i
    rw [findSub]
    cases hp : needle.isPrefixOf (c :: t) with
    | true =>
      simp only [if_pos rfl]
      constructor
      · intro h
        have hi : i = 0 := by simp at h; omega
        subst hi
        exact ⟨by rw [List.drop_zero]; exact hp, by omega⟩
      · intro ⟨h1, h2⟩
        cases i with
        | zero => rfl
        | succ k =>
          have := h2 0 (by omega)
          rw [List.drop_zero, hp] at this
          exact absurd this (by simp)
    | false =>
      simp only [Bool.false_eq_true, if_false]
      constructor
      · intro h
        cases hf : findSub t needle with
        | none => rw [hf] at h; exact absurd h (by simp)
        | some j =>
          rw [hf] at h
          have hij : i = j + 1 := by
            simp only [Option.map_some'] at h
            injection h with h
            omega
          subst hij
          obtain ⟨g1, g2⟩ := (ih j).mp hf
          refine ⟨g1, ?_⟩
          intro m hm
          cases m with
          | zero => rw [List.drop_zero]; exact hp
          | succ m => exact g2 m (by omega)
      · intro ⟨h1, h2⟩
        cases i with
        | zero =>
          rw [List.drop_zero, hp] at h1
          exact absurd h1 (by simp)
        | succ j =>
          have hf : findSub t needle = some j :=
            (ih j).mpr ⟨h1, fun m hm => h2 (m + 1) (by omega)⟩
          rw [hf]
          rfl

/-- The depth contribution of one character. -/
def braceDelta (ch : Char) : Int :=
  if ch = lbrace then 1 else if ch = rbrace then -1 else 0

/-- Brace depth of a slice, as the claim words it: `+1` per opening brace,
`-1` per closing brace. -/
def braceCount (l : List Char) : Int := (l.map braceDelta).sum

theorem braceCount_nil : braceCount [] = 0 := rfl

theorem braceCount_cons (ch : Char) (l : List Char) :
    braceCount (ch :: l) = braceDelta ch + braceCount l := by
  simp [braceCount]

theorem braceCount_take_succ (ch : Char) (rest : List Char) (k : Nat) :
    braceCount ((ch :: rest).take (k + 1)) = braceDelta ch + braceCount (rest.take k) := by
  rw [List.take_succ_cons, braceCount_cons]

theorem braceDelta_lbrace : braceDelta lbrace = 1 := by decide

theorem braceDelta_rbrace : braceDelta rbrace = -1 := by decide

theorem braceLoop_none_iff :
    ∀ (l : List Char) (c : Int) (acc : List Char), 0 < c →
      (braceLoop l c acc = none ↔
        ∀ k, 1 ≤ k → k ≤ l.length → c + braceCount (l.take k) ≠ 0) := by
  intro l
  induction l with
  | nil =>
    intro c acc hc
    constructor
    · intro _ k hk1 hk2
      simp at hk2
      omega
    · intro _
      rfl
  | cons ch rest ih =>
    intro c acc hc
    rw [braceLoop]
    by_cases hl : ch = lbrace
    · subst hl
      rw [if_pos rfl, ih (c + 1) _ (by omega)]
      constructor
      · intro h k hk1 hk2
        cases k with
        | zero => omega
        | succ n =>
          rw [braceCount_take_succ, braceDelta_lbrace]
          cases Nat.eq_zero_or_pos n with
          | inl hz =>
            subst hz
            simp only [List.take_zero, braceCount_nil]
            omega
          | inr hpos =>
            have := h n hpos (by simp at hk2; omega)
            omega
      · intro h n hn1 hn2
        have := h (n + 1) (by omega) (by simp; omega)
        rw [braceCount_take_succ, braceDelta_lbrace] at this
        omega
    · rw [if_neg hl]
      by_cases hr : ch = rbrace
      · subst hr
        rw [if_pos rfl]
        by_cases hz : c - 1 = 0
        · rw [if_pos hz]
          constructor
          · intro h
            exact absurd h (by simp)
          · intro h
            have := h 1 (by omega) (by simp)
            rw [show (1 : Nat) = 0 + 1 from rfl, braceCount_take_succ,
              braceDelta_rbrace] at this
            simp only [List.take_zero, braceCount_nil] at this
            omega
        · rw [if_neg hz]
          rw [ih (c - 1) _ (by omega)]
          constructor
          · intro h k hk1 hk2
            cases k with
            | zero => omega
            | succ n =>
              rw [braceCount_take_succ, braceDelta_rbrace]
              cases Nat.eq_zero_or_pos n with
              | inl hzn =>
                subst hzn
                simp only [List.take_zero, braceCount_nil]
                omega
              | inr hpos =>
                have := h n hpos (by simp at hk2; omega)
                omega
          · intro h n hn1 hn2
            have := h (n + 1) (by omega) (by simp; omega)
            rw [braceCount_take_succ, braceDelta_rbrace] at this
            omega
      · rw [if_neg hr]
        have hd : braceDelta ch = 0 := by simp [braceDelta, hl, hr]
        rw [ih c _ hc]
        constructor
        · intro h k hk1 hk2
          cases k with
          | zero => omega
          | succ n =>
            rw [braceCount_take_succ, hd]
            cases Nat.eq_zero_or_pos n with
            | inl hzn =>
              subst hzn
              simp only [List.take_zero, braceCount_nil]
              omega
            | inr hpos =>
              have := h n hpos (by simp at hk2; omega)
              omega
        · intro h n hn1 hn2
          have := h (n + 1) (by omega) (by simp; omega)
          rw [braceCount_take_succ, hd] at this
          omega

theorem braceLoop_some_iff :
    ∀ (l : List Char) (c : Int) (acc out : List Char), 0 < c →
      (braceLoop l c acc = some out ↔
        ∃ k, 1 ≤ k ∧ k ≤ l.length ∧ c + braceCount (l.take k) = 0 ∧
          (∀ j, 1 ≤ j → j < k → c + braceCount (l.take j) ≠ 0) ∧
          out = acc ++ l.take k) := by
  intro l
  induction l with
  | nil =>
    intro c acc out hc
    constructor
    · intro h
      exact absurd h (by simp [braceLoop])
    · intro ⟨k, hk1, hk2, _, _, _⟩
      simp at hk2
      omega
  | cons ch rest ih =>
    intro c acc out hc
    rw [braceLoop]
    by_cases hl : ch = lbrace
    · subst hl
      rw [if_pos rfl, ih (c + 1) _ out (by omega)]
      constructor
      · intro ⟨n, hn1, hn2, hn3, hn4, hn5⟩
        refine ⟨n + 1, by omega, by simp; omega, ?_, ?_, ?_⟩
        · rw [braceCount_take_succ, braceDelta_lbrace]
          omega
        · intro j hj1 hj2
          cases j with
          | zero => omega
          | succ m =>
            rw [braceCount_take_succ, braceDelta_lbrace]
            cases Nat.eq_zero_or_pos m with
            | inl hzm =>
              subst hzm
              simp only [List.take_zero, braceCount_nil]
              omega
            | inr hpos =>
              have := hn4 m hpos (by omega)
              omega
        · rw [hn5, List.take_succ_cons, List.append_assoc]
          rfl
      · intro ⟨k, hk1, hk2, hk3, hk4, hk5⟩
        cases k with
        | zero => omega
        | succ n =>
          rw [braceCount_take_succ, braceDelta_lbrace] at hk3
          have hn1 : 1 ≤ n := by
            by_contra hn0
            have hz : n = 0 := by omega
            subst hz
            simp only [List.take_zero, braceCount_nil] at hk3
            omega
          refine ⟨n, hn1, by simp at hk2; omega, by omega, ?_, ?_⟩
          · intro j hj1 hj2
            have := hk4 (j + 1) (by omega) (by omega)
            rw [braceCount_take_succ, braceDelta_lbrace] at this
            omega
          · rw [hk5, List.take_succ_cons, List.append_assoc]
            rfl
    · rw [if_neg hl]
      by_cases hr : ch = rbrace
      · subst hr
        rw [if_pos rfl]
        by_cases hz : c - 1 = 0
        · rw [if_pos hz]
          constructor
          · intro h
            simp only [Option.some.injEq] at h
            refine ⟨1, by omega, by simp, ?_, by omega, ?_⟩
            · rw [show (1 : Nat) = 0 + 1 from rfl, braceCount_take_succ,
                braceDelta_rbrace]
              simp only [List.take_zero, braceCount_nil]
              omega
            · rw [← h, List.take_succ_cons, List.take_zero]
          · intro ⟨k, hk1, hk2, hk3, hk4, hk5⟩
            have hk : k = 1 := by
              by_contra hkk
              have := hk4 1 (by omega) (by omega)
              rw [show (1 : Nat) = 0 + 1 from rfl, braceCount_take_succ,
                braceDelta_rbrace] at this
              simp only [List.take_zero, braceCount_nil] at this
              omega
            subst hk
            rw [hk5, List.take_succ_cons, List.take_zero]
        · rw [if_neg hz]
          rw [ih (c - 1) _ out (by omega)]
          constructor
          · intro ⟨n, hn1, hn2, hn3, hn4, hn5⟩
            refine ⟨n + 1, by omega, by simp; omega, ?_, ?_, ?_⟩
            · rw [braceCount_take_succ, braceDelta_rbrace]
              omega
            · intro j hj1 hj2
              cases j with
              | zero => omega
              | succ m =>
                rw [braceCount_take_succ, braceDelta_rbrace]
                cases Nat.eq_zero_or_pos m with
                | inl hzm =>
                  subst hzm
                  simp only [List.take_zero, braceCount_nil]
                  omega
                | inr hpos =>
                  have := hn4 m hpos (by omega)
                  omega
            · rw [hn5, List.take_succ_cons, List.append_assoc]
              rfl
          · intro ⟨k, hk1, hk2, hk3, hk4, hk5⟩
            cases k with
            | zero => omega
            | succ n =>
              rw [braceCount_take_succ, braceDelta_rbrace] at hk3
              have hn1 : 1 ≤ n := by
                by_contra hn0
                have hzn : n = 0 := by omega
                subst hzn
                simp only [List.take_zero, braceCount_nil] at hk3
                omega
              refine ⟨n, hn1, by simp at hk2; omega, by omega, ?_, ?_⟩
              · intro j hj1 hj2
                have := hk4 (j + 1) (by omega) (by omega)
                rw [braceCount_take_succ, braceDelta_rbrace] at this
                omega
              · rw [hk5, List.take_succ_cons, List.append_assoc]
                rfl
      · rw [if_neg hr]
        have hd : braceDelta ch = 0 := by simp [braceDelta, hl, hr]
        rw [ih c _ out hc]
        constructor
        · intro ⟨n, hn1, hn2, hn3, hn4, hn5⟩
          refine ⟨n + 1, by omega, by simp; omega, ?_, ?_, ?_⟩
          · rw [braceCount_take_succ, hd]
            omega
          · intro j hj1 hj2
            cases j with
            | zero => omega
            | succ m =>
              rw [braceCount_take_succ, hd]
              cases Nat.eq_zero_or_pos m with
              | inl hzm =>
                subst hzm
                simp only [List.take_zero, braceCount_nil]
                omega
              | inr hpos =>
                have := hn4 m hpos (by omega)
                omega
          · rw [hn5, List.take_succ_cons, List.append_assoc]
            rfl
        · intro ⟨k, hk1, hk2, hk3, hk4, hk5⟩
          cases k with
          | zero => omega
          | succ n =>
            rw [braceCount_take_succ, hd] at hk3
            have hn1 : 1 ≤ n := by
              by_contra hn0
              have hzn : n = 0 := by omega
              subst hzn
              simp only [List.take_zero, braceCount_nil] at hk3
              omega
            refine ⟨n, hn1, by simp at hk2; omega, by omega, ?_, ?_⟩
            · intro j hj1 hj2
              have := hk4 (j + 1) (by omega) (by omega)
              rw [braceCount_take_succ, hd] at this
              omega
            · rw [hk5, List.take_succ_cons, List.append_assoc]
              rfl

/-- The key does not occur anywhere in the text. -/
def KeyAbsent (chars : List Char) : Prop :=
  ∀ i, swaggerKey.isPrefixOf (chars.drop i) = false

/-- `i` is the first occurrence of the key. -/
def FirstKeyAt (chars : List Char) (i : Nat) : Prop :=
  swaggerKey.isPrefixOf (chars.drop i) = true ∧
    ∀ j, j < i → swaggerKey.isPrefixOf (chars.drop j) = false

/-- No opening brace occurs at or after position `i`. -/
def NoBraceFrom (chars : List Char) (i : Nat) : Prop :=
  ∀ j, i ≤ j → [lbrace].isPrefixOf (chars.drop j) = false

/-- `b` is the first opening-brace position at or after `i`. -/
def FirstBraceFrom (chars : List Char) (i b : Nat) : Prop :=
  i ≤ b ∧ [lbrace].isPrefixOf (chars.drop b) = true ∧
    ∀ j, i ≤ j → j < b → [lbrace].isPrefixOf (chars.drop j) = false

/-- The brace depth of the suffix never returns to zero before the end of
the input. -/
def NeverBalances (suffix : List Char) : Prop :=
  ∀ k, 1 ≤ k → k ≤ suffix.length → braceCount (suffix.take k) ≠ 0

/-- `k` is the length of the shortest nonempty prefix of the suffix whose
brace depth returns to zero. -/
def BalancedSliceAt (suffix : List Char) (k : Nat) : Prop :=
  1 ≤ k ∧ k ≤ suffix.length ∧ braceCount (suffix.take k) = 0 ∧
    ∀ j, 1 ≤ j → j < k → braceCount (suffix.take j) ≠ 0

theorem singleton_isPrefixOf_iff (c : Char) (l : List Char) :
    [c].isPrefixOf l = true ↔ ∃ t, l = c :: t := by
  cases l with
  | nil =>
    constructor
    · intro h
      rw [show [c].isPrefixOf ([] : List Char) = false from rfl] at h
      exact absurd h (by simp)
    · intro ⟨t, ht⟩
      exact List.noConfusion ht
  | cons x t =>
    rw [show [c].isPrefixOf (x :: t) = ((c == x) && List.isPrefixOf [] t) from rfl,
      show List.isPrefixOf ([] : List Char) t = true from by cases t <;> rfl]
    simp only [Bool.and_true, beq_iff_eq]
    constructor
    · intro h
      subst h
      exact ⟨t, rfl⟩
    · intro ⟨t2, ht⟩
      injection ht with h1 _
      exact h1.symm

theorem braceLoop_cons_lbrace (rest acc : List Char) (c : Int) :
    braceLoop (lbrace :: rest) c acc = braceLoop rest (c + 1) (acc ++ [lbrace]) := by
  rw [braceLoop, if_pos rfl]

theorem neverBalances_cons_lbrace (rest : List Char) :
    NeverBalances (lbrace :: rest) ↔
      (∀ k, 1 ≤ k → k ≤ rest.length → (1 : Int) + braceCount (rest.take k) ≠ 0) := by
  constructor
  · intro h k hk1 hk2
    have := h (k + 1) (by omega) (by simp; omega)
    rw [braceCount_take_succ, braceDelta_lbrace] at this
    omega
  · intro h k hk1 hk2
    cases k with
    | zero => omega
    | succ n =>
      rw [braceCount_take_succ, braceDelta_lbrace]
      cases Nat.eq_zero_or_pos n with
      | inl hz =>
        subst hz
        simp only [List.take_zero, braceCount_nil]
        omega
      | inr hp =>
        have := h n hp (by simp at hk2; omega)
        omega

theorem balancedSliceAt_cons_lbrace (rest : List Char) (k : Nat) :
    BalancedSliceAt (lbrace :: rest) (k + 1) ↔
      (1 ≤ k + 1 ∧ k ≤ rest.length ∧ (1 : Int) + braceCount (rest.take k) = 0 ∧
        ∀ j, 1 ≤ j → j < k → (1 : Int) + braceCount (rest.take j) ≠ 0) := by
  rw [BalancedSliceAt]
  constructor
  · intro ⟨h1, h2, h3, h4⟩
    rw [braceCount_take_succ, braceDelta_lbrace] at h3
    refine ⟨h1, by simp at h2; omega, h3, ?_⟩
    intro j hj1 hj2
    have := h4 (j + 1) (by omega) (by omega)
    rw [braceCount_take_succ, braceDelta_lbrace] at this
    omega
  · intro ⟨h1, h2, h3, h4⟩
    refine ⟨h1, by simp; omega, ?_, ?_⟩
    · rw [braceCount_take_succ, braceDelta_lbrace]
      omega
    · intro j hj1 hj2
      cases j with
      | zero => omega
      | succ m =>
        rw [braceCount_take_succ, braceDelta_lbrace]
        cases Nat.eq_zero_or_pos m with
        | inl hz =>
          subst hz
          simp only [List.take_zero, braceCount_nil]
          omega
        | inr hp =>
          have := h4 m hp (by omega)
          omega

/-- The mapped second find of the extractor, characterized: `some b` is
exactly the first brace at or after `i`. -/
theorem braceFind_some_iff (chars : List Char) (i b : Nat) :
    (findSub (chars.drop i) [lbrace]).map (· + i) = some b ↔
      FirstBraceFrom chars i b := by
  constructor
  · intro h
    cases hf : findSub (chars.drop i) [lbrace] with
    | none => rw [hf] at h; exact absurd h (by simp)
    | some d =>
      rw [hf] at h
      simp only [Option.map_some'] at h
      injection h with h
      obtain ⟨g1, g2⟩ := (findSub_some_iff [lbrace] (chars.drop i) d).mp hf
      rw [List.drop_drop] at g1
      refine ⟨by omega, by rw [show b = i + d from by omega]; exact g1, ?_⟩
      intro j hj1 hj2
      have := g2 (j - i) (by omega)
      rw [List.drop_drop] at this
      rw [show i + (j - i) = j from by omega] at this
      exact this
  · intro ⟨h1, h2, h3⟩
    have hf : findSub (chars.drop i) [lbrace] = some (b - i) := by
      refine (findSub_some_iff [lbrace] (chars.drop i) (b - i)).mpr ⟨?_, ?_⟩
      · rw [List.drop_drop, show i + (b - i) = b from by omega]
        exact h2
      · intro m hm
        rw [List.drop_drop]
        exact h3 (i + m) (by omega) (by omega)
    rw [hf]
    simp only [Option.map_some']
    rw [show b - i + i = b from by omega]

theorem braceFind_none_iff (chars : List Char) (i : Nat) :
    (findSub (chars.drop i) [lbrace]).map (· + i) = none ↔ NoBraceFrom chars i := by
  rw [Option.map_eq_none', findSub_none_iff]
  constructor
  · intro h j hj
    have := h (j - i)
    rw [List.drop_drop, show i + (j - i) = j from by omega] at this
    exact this
  · intro h d
    rw [List.drop_drop]
    exact h (i + d) (by omega)

theorem firstKeyAt_unique {chars : List Char} {i i2 : Nat}
    (h1 : FirstKeyAt chars i) (h2 : FirstKeyAt chars i2) : i = i2 := by
  obtain ⟨a1, a2⟩ := h1
  obtain ⟨b1, b2⟩ := h2
  by_contra hne
  cases Nat.lt_or_ge i i2 with
  | inl hlt => rw [b2 i hlt] at a1; exact absurd a1 (by simp)
  | inr hge => rw [a2 i2 (by omega)] at b1; exact absurd b1 (by simp)

theorem firstBraceFrom_unique {chars : List Char} {i b b2 : Nat}
    (h1 : FirstBraceFrom chars i b) (h2 : FirstBraceFrom chars i b2) : b = b2 := by
  obtain ⟨a0, a1, a2⟩ := h1
  obtain ⟨b0, b1, b2'⟩ := h2
  by_contra hne
  cases Nat.lt_or_ge b b2 with
  | inl hlt => rw [b2' b a0 hlt] at a1; exact absurd a1 (by simp)
  | inr hge => rw [a2 b2 b0 (by omega)] at b1; exact absurd b1 (by simp)

theorem balancedSliceAt_unique {s : List Char} {k k2 : Nat}
    (h1 : BalancedSliceAt s k) (h2 : BalancedSliceAt s k2) : k = k2 := by
  obtain ⟨a1, a2, a3, a4⟩ := h1
  obtain ⟨b1, b2, b3, b4⟩ := h2
  by_contra hne
  cases Nat.lt_or_ge k k2 with
  | inl hlt => exact b4 k a1 hlt a3
  | inr hge => exact a4 k2 b1 (by omega) b3

theorem firstBraceFrom_not_noBrace {chars : List Char} {i b : Nat}
    (h1 : FirstBraceFrom chars i b) (h2 : NoBraceFrom chars i) : False := by
  obtain ⟨a0, a1, _⟩ := h1
  rw [h2 b a0] at a1
  exact absurd a1 (by simp)

theorem balancedSliceAt_not_neverBalances {s : List Char} {k : Nat}
    (h1 : BalancedSliceAt s k) (h2 : NeverBalances s) : False := by
  obtain ⟨a1, a2, a3, _⟩ := h1
  exact h2 k a1 a2 a3

theorem firstKeyAt_not_keyAbsent {chars : List Char} {i : Nat}
    (h1 : FirstKeyAt chars i) (h2 : KeyAbsent chars) : False := by
  obtain ⟨a1, _⟩ := h1
  rw [h2 i] at a1
  exact absurd a1 (by simp)

/-- C4: the extractor fails with exactly one of the four taxonomy errors in
exactly the stated situations — `KeyNotFound` when the key occurs nowhere,
`MalformedEmbedding` when no opening brace follows the first key
occurrence, `UnbalancedBraces` when the brace depth never returns to zero
before the end of the input, `EmbeddedJsonParseError` when the
brace-balanced slice is not valid JSON — and succeeds with the parsed
slice otherwise. -/
theorem extract_error_characterization (js : String) :
    (extract_swagger_doc_from_js js = .error .keyNotFound ↔ KeyAbsent js.data) ∧
    (extract_swagger_doc_from_js js = .error .malformedEmbedding ↔
      ∃ i, FirstKeyAt js.data i ∧ NoBraceFrom js.data i) ∧
    (extract_swagger_doc_from_js js = .error .unbalancedBraces ↔
      ∃ i b, FirstKeyAt js.data i ∧ FirstBraceFrom js.data i b ∧
        NeverBalances (js.data.drop b)) ∧
    (extract_swagger_doc_from_js js = .error .embeddedJsonParseError ↔
      ∃ i b k, FirstKeyAt js.data i ∧ FirstBraceFrom js.data i b ∧
        BalancedSliceAt (js.data.drop b) k ∧
        json_loads (String.mk ((js.data.drop b).take k)) = none) ∧
    (∀ v : JsonVal, extract_swagger_doc_from_js js = .ok v ↔
      ∃ i b k, FirstKeyAt js.data i ∧ FirstBraceFrom js.data i b ∧
        BalancedSliceAt (js.data.drop b) k ∧
        json_loads (String.mk ((js.data.drop b).take k)) = some v) := by
  cases hfind : findSub js.data swaggerKey with
  | none =>
    have hka : KeyAbsent js.data := (findSub_none_iff swaggerKey js.data).mp hfind
    have hEval : extract_swagger_doc_from_js js = .error .keyNotFound := by
      simp only [extract_swagger_doc_from_js]
      rw [hfind]
    refine ⟨⟨fun _ => hka, fun _ => hEval⟩, ?_, ?_, ?_, ?_⟩
    · constructor
      · intro h
        rw [hEval] at h
        simp at h
      · intro ⟨i, hfk, _⟩
        exact (firstKeyAt_not_keyAbsent hfk hka).elim
    · constructor
      · intro h
        rw [hEval] at h
        simp at h
      · intro ⟨i, b, hfk, _⟩
        exact (firstKeyAt_not_keyAbsent hfk hka).elim
    · constructor
      · intro h
        rw [hEval] at h
        simp at h
      · intro ⟨i, _, _, hfk, _⟩
        exact (firstKeyAt_not_keyAbsent hfk hka).elim
    · intro v
      constructor
      · intro h
        rw [hEval] at h
        simp at h
      · intro ⟨i, _, _, hfk, _⟩
        exact (firstKeyAt_not_keyAbsent hfk hka).elim
  | some i =>
    have hfk : FirstKeyAt js.data i := by
      obtain ⟨g1, g2⟩ := (findSub_some_iff swaggerKey js.data i).mp hfind
      exact ⟨g1, g2⟩
    have hnka : ¬ KeyAbsent js.data := fun hka =>
      firstKeyAt_not_keyAbsent hfk hka
    cases hbrace : (findSub (js.data.drop i) [lbrace]).map (· + i) with
    | none =>
      have hnb : NoBraceFrom js.data i := (braceFind_none_iff js.data i).mp hbrace
      have hEval : extract_swagger_doc_from_js js = .error .malformedEmbedding := by
        simp only [extract_swagger_doc_from_js]
        rw [hfind]
        dsimp only
        rw [hbrace]
      refine ⟨?_, ⟨fun _ => ⟨i, hfk, hnb⟩, fun _ => hEval⟩, ?_, ?_, ?_⟩
      · constructor
        · intro h
          rw [hEval] at h
          simp at h
        · intro hka
          exact absurd hka hnka
      · constructor
        · intro h
          rw [hEval] at h
          simp at h
        · intro ⟨i2, b, hfk2, hfb, _⟩
          rw [firstKeyAt_unique hfk2 hfk] at hfb
          exact absurd (firstBraceFrom_not_noBrace hfb hnb) (by simp)
      · constructor
        · intro h
          rw [hEval] at h
          simp at h
        · intro ⟨i2, b, _, hfk2, hfb, _⟩
          rw [firstKeyAt_unique hfk2 hfk] at hfb
          exact absurd (firstBraceFrom_not_noBrace hfb hnb) (by simp)
      · intro v
        constructor
        · intro h
          rw [hEval] at h
          simp at h
        · intro ⟨i2, b, _, hfk2, hfb, _⟩
          rw [firstKeyAt_unique hfk2 hfk] at hfb
          exact absurd (firstBraceFrom_not_noBrace hfb hnb) (by simp)
    | some b =>
      have hfb : FirstBraceFrom js.data i b := (braceFind_some_iff js.data i b).mp hbrace
      obtain ⟨rest, hsplit⟩ := (singleton_isPrefixOf_iff lbrace (js.data.drop b)).mp hfb.2.1
      have hloopEq : braceLoop (js.data.drop b) 0 [] = braceLoop rest 1 [lbrace] := by
        rw [hsplit, braceLoop_cons_lbrace]
        norm_num
      cases hloop : braceLoop rest 1 [lbrace] with
      | none =>
        have hnbal : NeverBalances (js.data.drop b) := by
          rw [hsplit]
          rw [neverBalances_cons_lbrace]
          exact (braceLoop_none_iff rest 1 [lbrace] (by omega)).mp hloop
        have hEval : extract_swagger_doc_from_js js = .error .unbalancedBraces := by
          simp only [extract_swagger_doc_from_js]
          rw [hfind]
          dsimp only
          rw [hbrace]
          dsimp only
          rw [hloopEq, hloop]
        refine ⟨?_, ?_, ⟨fun _ => ⟨i, b, hfk, hfb, hnbal⟩, fun _ => hEval⟩, ?_, ?_⟩
        · constructor
          · intro h
            rw [hEval] at h
            simp at h
          · intro hka
            exact absurd hka hnka
        · constructor
          · intro h
            rw [hEval] at h
            simp at h
          · intro ⟨i2, hfk2, hnb⟩
            rw [firstKeyAt_unique hfk2 hfk] at hnb
            exact absurd (firstBraceFrom_not_noBrace hfb hnb) (by simp)
        · constructor
          · intro h
            rw [hEval] at h
            simp at h
          · intro ⟨i2, b2, k, hfk2, hfb2, hbal, _⟩
            rw [firstKeyAt_unique hfk2 hfk] at hfb2
            rw [firstBraceFrom_unique hfb2 hfb] at hbal
            exact absurd (balancedSliceAt_not_neverBalances hbal hnbal) (by simp)
        · intro v
          constructor
          · intro h
            rw [hEval] at h
            simp at h
          · intro ⟨i2, b2, k, hfk2, hfb2, hbal, _⟩
            rw [firstKeyAt_unique hfk2 hfk] at hfb2
            rw [firstBraceFrom_unique hfb2 hfb] at hbal
            exact absurd (balancedSliceAt_not_neverBalances hbal hnbal) (by simp)
      | some out =>
        obtain ⟨k0, hk1, hk2, hk3, hk4, hk5⟩ :=
          (braceLoop_some_iff rest 1 [lbrace] out (by omega)).mp hloop
        have hbal : BalancedSliceAt (js.data.drop b) (k0 + 1) := by
          rw [hsplit]
          exact (balancedSliceAt_cons_lbrace rest k0).mpr
            ⟨by omega, hk2, by omega, fun j hj1 hj2 => by
              have := hk4 j hj1 hj2
              omega⟩
        have hout : out = (js.data.drop b).take (k0 + 1) := by
          rw [hsplit, List.take_succ_cons, hk5]
          rfl
        cases hparse : json_loads (String.mk out) with
        | none =>
          have hEval : extract_swagger_doc_from_js js
              = .error .embeddedJsonParseError := by
            simp only [extract_swagger_doc_from_js]
            rw [hfind]
            dsimp only
            rw [hbrace]
            dsimp only
            rw [hloopEq, hloop]
            dsimp only
            rw [hparse]
          refine ⟨?_, ?_, ?_, ⟨fun _ => ⟨i, b, k0 + 1, hfk, hfb, hbal, by
            rw [← hout]; exact hparse⟩, fun _ => hEval⟩, ?_⟩
          · constructor
            · intro h
              rw [hEval] at h
              simp at h
            · intro hka
              exact absurd hka hnka
          · constructor
            · intro h
              rw [hEval] at h
              simp at h
            · intro ⟨i2, hfk2, hnb⟩
              rw [firstKeyAt_unique hfk2 hfk] at hnb
              exact absurd (firstBraceFrom_not_noBrace hfb hnb) (by simp)
          · constructor
            · intro h
              rw [hEval] at h
              simp at h
            · intro ⟨i2, b2, hfk2, hfb2, hnbal⟩
              rw [firstKeyAt_unique hfk2 hfk] at hfb2
              rw [firstBraceFrom_unique hfb2 hfb] at hnbal
              exact absurd (balancedSliceAt_not_neverBalances hbal hnbal) (by simp)
          · intro v
            constructor
            · intro h
              rw [hEval] at h
              simp at h
            · intro ⟨i2, b2, k2, hfk2, hfb2, hbal2, hload⟩
              rw [firstKeyAt_unique hfk2 hfk] at hfb2
              rw [firstBraceFrom_unique hfb2 hfb] at hbal2 hload
              rw [balancedSliceAt_unique hbal2 hbal] at hload
              rw [← hout, hparse] at hload
              exact absurd hload (by simp)
        | some v0 =>
          have hEval : extract_swagger_doc_from_js js = .ok v0 := by
            simp only [extract_swagger_doc_from_js]
            rw [hfind]
            dsimp only
            rw [hbrace]
            dsimp only
            rw [hloopEq, hloop]
            dsimp only
            rw [hparse]
          refine ⟨?_, ?_, ?_, ?_, ?_⟩
          · constructor
            · intro h
              rw [hEval] at h
              simp at h
            · intro hka
              exact absurd hka hnka
          · constructor
            · intro h
              rw [hEval] at h
              simp at h
            · intro ⟨i2, hfk2, hnb⟩
              rw [firstKeyAt_unique hfk2 hfk] at hnb
              exact absurd (firstBraceFrom_not_noBrace hfb hnb) (by simp)
          · constructor
            · intro h
              rw [hEval] at h
              simp at h
            · intro ⟨i2, b2, hfk2, hfb2, hnbal⟩
              rw [firstKeyAt_unique hfk2 hfk] at hfb2
              rw [firstBraceFrom_unique hfb2 hfb] at hnbal
              exact absurd (balancedSliceAt_not_neverBalances hbal hnbal) (by simp)
          · constructor
            · intro h
              rw [hEval] at h
              simp at h
            · intro ⟨i2, b2, k2, hfk2, hfb2, hbal2, hload⟩
              rw [firstKeyAt_unique hfk2 hfk] at hfb2
              rw [firstBraceFrom_unique hfb2 hfb] at hbal2 hload
              rw [balancedSliceAt_unique hbal2 hbal] at hload
              rw [← hout, hparse] at hload
              exact absurd hload (by simp)
          · intro v
            constructor
            · intro h
              rw [hEval] at h
              refine ⟨i, b, k0 + 1, hfk, hfb, hbal, ?_⟩
              rw [← hout, hparse]
              injection h with h
              rw [h]
            · intro ⟨i2, b2, k2, hfk2, hfb2, hbal2, hload⟩
              rw [firstKeyAt_unique hfk2 hfk] at hfb2
              rw [firstBraceFrom_unique hfb2 hfb] at hbal2 hload
              rw [balancedSliceAt_unique hbal2 hbal] at hload
              rw [← hout, hparse] at hload
              rw [hEval]
              injection hload with hload
              rw [hload]

/-! ## Round-tripping the JSON serializer through the parser -/

mutual

/-- Fuel needed to parse the serialization of a value. -/
def jweight : JsonVal → Nat
  | .null => 1
  | .bool _ => 1
  | .num _ => 1
  | .str _ => 1
  | .arr l => 1 + jweightElems l
  | .obj kvs => 1 + jweightMembers kvs

def jweightElems : List JsonVal → Nat
  | [] => 1
  | x :: xs => 1 + max (jweight x) (jweightElems xs)

def jweightMembers : List (String × JsonVal) → Nat
  | [] => 1
  | (_, v) :: xs => 1 + max (jweight v) (jweightMembers xs)

end

theorem jweight_pos (v : JsonVal) : 1 ≤ jweight v := by
  cases v <;> simp [jweight]

theorem jweightElems_pos (l : List JsonVal) : 1 ≤ jweightElems l := by
  cases l <;> simp [jweightElems]

theorem jweightMembers_pos (l : List (String × JsonVal)) : 1 ≤ jweightMembers l := by
  cases l with
  | nil => simp [jweightMembers]
  | cons kv rest => rcases kv with ⟨k, v⟩; simp [jweightMembers]

/-- Whether a character list starts with a decimal digit. -/
def headDigit : List Char → Bool
  | [] => false
  | c :: _ => isDigitChar c

theorem digitChar_facts : ∀ d, d < 10 →
    isDigitChar (digitChar d) = true ∧ digitVal (digitChar d) = d := by decide

theorem natFromDigits_append_one (a : List Char) (c : Char) :
    natFromDigits (a ++ [c]) = 10 * natFromDigits a + digitVal c := by
  rw [natFromDigits, List.foldl_append]
  rfl

theorem natDigitsAux_spec :
    ∀ (fuel n : Nat), n < fuel →
      natDigitsAux fuel n ≠ [] ∧ (∀ c ∈ natDigitsAux fuel n, isDigitChar c = true) ∧
        natFromDigits (natDigitsAux fuel n) = n := by
  intro fuel
  induction fuel with
  | zero => intro n h; omega
  | succ f ih =>
    intro n h
    rw [natDigitsAux]
    by_cases h10 : n < 10
    · rw [if_pos h10]
      obtain ⟨hd1, hd2⟩ := digitChar_facts n h10
      refine ⟨by simp, ?_, ?_⟩
      · intro c hc
        simp at hc
        rw [hc]
        exact hd1
      · have he : natFromDigits [digitChar n] = 10 * 0 + digitVal (digitChar n) := rfl
        rw [he, hd2]
        omega
    · rw [if_neg h10]
      obtain ⟨ih1, ih2, ih3⟩ := ih (n / 10) (by omega)
      obtain ⟨hd1, hd2⟩ := digitChar_facts (n % 10) (by omega)
      refine ⟨by simp, ?_, ?_⟩
      · intro c hc
        rw [List.mem_append] at hc
        rcases hc with hc | hc
        · exact ih2 c hc
        · simp at hc
          rw [hc]
          exact hd1
      · rw [natFromDigits_append_one, ih3, hd2]
        omega

theorem natDigits_spec (n : Nat) :
    natDigits n ≠ [] ∧ (∀ c ∈ natDigits n, isDigitChar c = true) ∧
      natFromDigits (natDigits n) = n :=
  natDigitsAux_spec (n + 1) n (by omega)

theorem intChars_shape (i : Int) :
    ∃ c t, intChars i = c :: t ∧ (c = '-' ∨ isDigitChar c = true) ∧
      (∀ d ∈ t, isDigitChar d = true) := by
  obtain ⟨h1, h2, _⟩ := natDigits_spec i.natAbs
  rw [intChars]
  by_cases hneg : i < 0
  · rw [if_pos hneg]
    cases hd : natDigits i.natAbs with
    | nil => exact absurd hd h1
    | cons c t =>
      refine ⟨'-', c :: t, rfl, Or.inl rfl, ?_⟩
      intro d hdm
      apply h2
      rw [hd]
      exact hdm
  · rw [if_neg hneg]
    cases hd : natDigits i.natAbs with
    | nil => exact absurd hd h1
    | cons c t =>
      refine ⟨c, t, rfl, Or.inr (h2 c (by rw [hd]; exact List.mem_cons_self _ _)), ?_⟩
      intro d hdm
      exact h2 d (by rw [hd]; exact List.mem_cons_of_mem _ hdm)

theorem takeWhile_all_append (p : Char → Bool) (a b : List Char)
    (ha : ∀ c ∈ a, p c = true) (hb : ∀ c, b.head? = some c → p c = false) :
    (a ++ b).takeWhile p = a ∧ (a ++ b).dropWhile p = b := by
  induction a with
  | nil =>
    simp only [List.nil_append]
    cases b with
    | nil => exact ⟨rfl, rfl⟩
    | cons c t =>
      have := hb c rfl
      rw [List.takeWhile_cons, List.dropWhile_cons, this]
      exact ⟨rfl, by simp⟩
  | cons x a2 ih =>
    have hx := ha x (List.mem_cons_self _ _)
    obtain ⟨g1, g2⟩ := ih (fun c hc => ha c (List.mem_cons_of_mem _ hc))
    rw [List.cons_append, List.takeWhile_cons, List.dropWhile_cons, hx]
    simp only [if_true]
    exact ⟨by rw [g1], g2⟩

theorem digit_not_special (c : Char) (h : isDigitChar c = true) :
    isWsChar c = false ∧ c ≠ '"' ∧ c ≠ lbrace ∧ c ≠ '[' ∧ c ≠ '-' ∧ c ≠ 'n' ∧
      c ≠ 't' ∧ c ≠ 'f' ∧ c ≠ ']' ∧ c ≠ rbrace ∧ c ≠ ',' ∧ c ≠ ':' := by
  refine ⟨?_, ?_, ?_, ?_, ?_, ?_, ?_, ?_, ?_, ?_, ?_, ?_⟩
  · cases hw : isWsChar c with
    | false => rfl
    | true =>
      rw [isWsChar] at hw
      simp only [Bool.or_eq_true, decide_eq_true_eq] at hw
      rcases hw with ((h1 | h1) | h1) | h1 <;> (subst h1; exact absurd h (by decide))
  all_goals intro he
  all_goals rw [he] at h
  all_goals exact absurd h (by decide)

theorem skipWs_cons (c : Char) (l : List Char) (h : isWsChar c = false) :
    skipWs (c :: l) = c :: l := by
  rw [skipWs, List.dropWhile_cons, h]
  simp

theorem parseNum_intChars (i : Int) (rest : List Char) (hrest : headDigit rest = false) :
    parseNum (intChars i ++ rest) = some (.num i, rest) := by
  have hb : ∀ c, rest.head? = some c → isDigitChar c = false := by
    intro c hc
    cases rest with
    | nil => simp at hc
    | cons r t =>
      injection hc with hc
      subst hc
      rw [headDigit] at hrest
      exact hrest
  obtain ⟨hne, hdig, hval⟩ := natDigits_spec i.natAbs
  have hEmpty : (natDigits i.natAbs).isEmpty = false := by
    cases hnd : natDigits i.natAbs with
    | nil => exact absurd hnd hne
    | cons a b => rfl
  obtain ⟨ht, hd⟩ := takeWhile_all_append isDigitChar (natDigits i.natAbs) rest hdig hb
  by_cases hneg : i < 0
  · rw [intChars, if_pos hneg, List.cons_append]
    simp only [parseNum]
    rw [if_pos trivial, ht, hd, hEmpty]
    simp only [Bool.false_eq_true, if_false]
    rw [hval]
    have hni : -((i.natAbs : Nat) : Int) = i := by omega
    rw [hni]
  · rw [intChars, if_neg hneg]
    cases hnd : natDigits i.natAbs with
    | nil => exact absurd hnd hne
    | cons a t =>
      have hadig : isDigitChar a = true := by
        apply hdig
        rw [hnd]
        exact List.mem_cons_self _ _
      obtain ⟨_, _, _, _, hnotminus, _⟩ := digit_not_special a hadig
      rw [hnd] at ht hd
      rw [List.cons_append] at ht hd
      rw [List.cons_append]
      simp only [parseNum]
      rw [if_neg hnotminus, ht, hd]
      rw [← hnd, hEmpty]
      simp only [Bool.false_eq_true, if_false]
      rw [hval]
      have hni : ((i.natAbs : Nat) : Int) = i := by omega
      rw [hni]

theorem escapeChar_quote : escapeChar '"' = [bslash, '"'] := by decide

theorem escapeChar_bslash : escapeChar bslash = [bslash, bslash] := by decide

theorem escapeChar_other (c : Char) (h1 : c ≠ '"') (h2 : c ≠ bslash) :
    escapeChar c = [c] := by
  rw [escapeChar, if_neg h1, if_neg h2]

theorem parseStringBody_escBody :
    ∀ (s rest : List Char), parseStringBody (escBody s ++ '"' :: rest) = some (s, rest) := by
  intro s
  induction s with
  | nil =>
    intro rest
    rw [show escBody [] ++ '"' :: rest = '"' :: rest from rfl, parseStringBody.eq_def]
    dsimp only
    rw [if_pos rfl]
  | cons c s2 ih =>
    intro rest
    rw [show escBody (c :: s2) = escapeChar c ++ escBody s2 from rfl]
    by_cases hq : c = '"'
    · subst hq
      rw [escapeChar_quote]
      rw [show ([bslash, '"'] ++ escBody s2) ++ '"' :: rest
          = bslash :: '"' :: (escBody s2 ++ '"' :: rest) from by simp]
      rw [parseStringBody.eq_def]
      dsimp only
      rw [if_neg (by decide), if_pos rfl]
      rw [show escDecode '"' = some '"' from by decide]
      rw [ih rest]
    · by_cases hbs : c = bslash
      · subst hbs
        rw [escapeChar_bslash]
        rw [show ([bslash, bslash] ++ escBody s2) ++ '"' :: rest
            = bslash :: bslash :: (escBody s2 ++ '"' :: rest) from by simp]
        rw [parseStringBody.eq_def]
        dsimp only
        rw [if_neg (by decide), if_pos rfl]
        rw [show escDecode bslash = some bslash from by decide]
        rw [ih rest]
      · rw [escapeChar_other c hq hbs]
        rw [show ([c] ++ escBody s2) ++ '"' :: rest
            = c :: (escBody s2 ++ '"' :: rest) from by simp]
        rw [parseStringBody.eq_def]
        dsimp only
        rw [if_neg hq, if_neg hbs]
        rw [ih rest]

theorem dumpHead_facts (v : JsonVal) :
    ∃ c t, jsonDumpChars v = c :: t ∧ isWsChar c = false ∧ c ≠ ']' ∧
      c ≠ rbrace ∧ c ≠ ',' := by
  cases v with
  | null => exact ⟨'n', _, rfl, by decide, by decide, by decide, by decide⟩
  | bool b =>
    cases b with
    | true => exact ⟨'t', _, rfl, by decide, by decide, by decide, by decide⟩
    | false => exact ⟨'f', _, rfl, by decide, by decide, by decide, by decide⟩
  | num i =>
    obtain ⟨c, t, hshape, hc, _⟩ := intChars_shape i
    rcases hc with hc | hc
    · subst hc
      exact ⟨'-', t, by rw [show jsonDumpChars (.num i) = intChars i from rfl, hshape],
        by decide, by decide, by decide, by decide⟩
    · obtain ⟨g1, _, _, _, _, _, _, _, g9, g10, g11, _⟩ := digit_not_special c hc
      exact ⟨c, t, by rw [show jsonDumpChars (.num i) = intChars i from rfl, hshape],
        g1, g9, g10, g11⟩
  | str s =>
    exact ⟨'"', _, rfl, by decide, by decide, by decide, by decide⟩
  | arr l =>
    exact ⟨'[', dumpElems l ++ [']'], rfl, by decide, by decide, by decide, by decide⟩
  | obj kvs =>
    exact ⟨lbrace, dumpMembers kvs ++ [rbrace], rfl, by decide, by decide, by decide,
      by decide⟩

theorem lit_prefix_append (lit rest : List Char) : lit.isPrefixOf (lit ++ rest) = true := by
  induction lit with
  | nil => cases rest <;> rfl
  | cons c t ih => simp [List.isPrefixOf, ih]

theorem lit_prefix_head_ne (a b : Char) (as bs : List Char) (h : ¬ a = b) :
    (a :: as).isPrefixOf (b :: bs) = false := by
  simp [List.isPrefixOf]
  intro he
  exact absurd he h

/-- `parseVal` on a non-whitespace head that dispatches to the number
parser. -/
theorem parseVal_num_dispatch (fuel : Nat) (c : Char) (t : List Char)
    (hws : isWsChar c = false) (hq : ¬ c = '"') (hlb : ¬ c = lbrace) (hsb : ¬ c = '[')
    (hn : ¬ c = 'n') (ht2 : ¬ c = 't') (hf : ¬ c = 'f')
    (hnum : c = '-' ∨ isDigitChar c = true) :
    parseVal (fuel + 1) (c :: t) = parseNum (c :: t) := by
  simp only [parseVal]
  rw [skipWs_cons c t hws]
  dsimp only
  rw [if_neg hq, if_neg hlb, if_neg hsb,
    if_neg (by rw [lit_prefix_head_ne 'n' c _ _ (fun he => hn he.symm)]; simp),
    if_neg (by rw [lit_prefix_head_ne 't' c _ _ (fun he => ht2 he.symm)]; simp),
    if_neg (by rw [lit_prefix_head_ne 'f' c _ _ (fun he => hf he.symm)]; simp),
    if_pos (by rcases hnum with h | h <;> simp [h])]

/-- `parseVal` on an opening quote. -/
theorem parseVal_string_dispatch (fuel : Nat) (t : List Char) :
    parseVal (fuel + 1) ('"' :: t) =
      match parseStringBody t with
      | some (s, r) => some (.str (String.mk s), r)
      | none => none := by
  simp only [parseVal]
  rw [skipWs_cons _ _ (by decide)]
  dsimp only
  rw [if_pos rfl]

theorem headDigit_cons (c : Char) (l : List Char) : headDigit (c :: l) = isDigitChar c :=
  rfl

theorem jweightElems_head_le (x : JsonVal) (xs : List JsonVal) :
    jweight x + 1 ≤ jweightElems (x :: xs) := by
  rw [jweightElems]
  have := Nat.le_max_left (jweight x) (jweightElems xs)
  omega

theorem jweightElems_tail_le (x : JsonVal) (xs : List JsonVal) :
    jweightElems xs + 1 ≤ jweightElems (x :: xs) := by
  rw [jweightElems]
  have := Nat.le_max_right (jweight x) (jweightElems xs)
  omega

theorem jweightMembers_head_le (k : String) (v : JsonVal) (xs : List (String × JsonVal)) :
    jweight v + 1 ≤ jweightMembers ((k, v) :: xs) := by
  rw [jweightMembers]
  have := Nat.le_max_left (jweight v) (jweightMembers xs)
  omega

theorem jweightMembers_tail_le (k : String) (v : JsonVal) (xs : List (String × JsonVal)) :
    jweightMembers xs + 1 ≤ jweightMembers ((k, v) :: xs) := by
  rw [jweightMembers]
  have := Nat.le_max_right (jweight v) (jweightMembers xs)
  omega

/-- Round trip: parsing the serialization of a value (followed by any
non-digit continuation) succeeds and leaves the continuation intact, given
enough fuel. -/
theorem parse_dump : ∀ fuel : Nat,
    (∀ (v : JsonVal) (rest : List Char), jweight v ≤ fuel → headDigit rest = false →
      parseVal fuel (jsonDumpChars v ++ rest) = some (v, rest)) ∧
    (∀ (x : JsonVal) (xs : List JsonVal) (rest : List Char),
      jweightElems (x :: xs) ≤ fuel → headDigit rest = false →
      parseElems fuel (dumpElems (x :: xs) ++ ']' :: rest) = some (x :: xs, rest)) ∧
    (∀ (k : String) (v0 : JsonVal) (kvs : List (String × JsonVal)) (rest : List Char),
      jweightMembers ((k, v0) :: kvs) ≤ fuel → headDigit rest = false →
      parseMembers fuel (dumpMembers ((k, v0) :: kvs) ++ rbrace :: rest)
        = some ((k, v0) :: kvs, rest)) := by
  intro fuel
  induction fuel with
  | zero =>
    refine ⟨?_, ?_, ?_⟩
    · intro v rest hw _
      have := jweight_pos v
      omega
    · intro x xs rest hw _
      have := jweightElems_pos (x :: xs)
      omega
    · intro k v0 kvs rest hw _
      have := jweightMembers_pos ((k, v0) :: kvs)
      omega
  | succ fuel ih =>
    obtain ⟨ihV, ihE, ihM⟩ := ih
    refine ⟨?_, ?_, ?_⟩
    · intro v rest hw hrest
      cases v with
      | null =>
        simp only [jsonDumpChars]
        rw [show (['n', 'u', 'l', 'l'] : List Char) ++ rest
            = 'n' :: 'u' :: 'l' :: 'l' :: rest from rfl]
        simp only [parseVal]
        rw [skipWs_cons _ _ (by decide)]
        dsimp only
        rw [if_neg (by decide), if_neg (by decide), if_neg (by decide),
          if_pos (by
            rw [show ('n' :: 'u' :: 'l' :: 'l' :: rest)
                = ['n', 'u', 'l', 'l'] ++ rest from rfl]
            rw [lit_prefix_append])]
        rfl
      | bool b =>
        cases b with
        | true =>
          simp only [jsonDumpChars]
          rw [show (['t', 'r', 'u', 'e'] : List Char) ++ rest
              = 't' :: 'r' :: 'u' :: 'e' :: rest from rfl]
          simp only [parseVal]
          rw [skipWs_cons _ _ (by decide)]
          dsimp only
          rw [if_neg (by decide), if_neg (by decide), if_neg (by decide),
            if_neg (by rw [lit_prefix_head_ne 'n' 't' _ _ (by decide)]; simp),
            if_pos (by
              rw [show ('t' :: 'r' :: 'u' :: 'e' :: rest)
                  = ['t', 'r', 'u', 'e'] ++ rest from rfl]
              rw [lit_prefix_append])]
          rfl
        | false =>
          simp only [jsonDumpChars]
          rw [show (['f', 'a', 'l', 's', 'e'] : List Char) ++ rest
              = 'f' :: 'a' :: 'l' :: 's' :: 'e' :: rest from rfl]
          simp only [parseVal]
          rw [skipWs_cons _ _ (by decide)]
          dsimp only
          rw [if_neg (by decide), if_neg (by decide), if_neg (by decide),
            if_neg (by rw [lit_prefix_head_ne 'n' 'f' _ _ (by decide)]; simp),
            if_neg (by rw [lit_prefix_head_ne 't' 'f' _ _ (by decide)]; simp),
            if_pos (by
              rw [show ('f' :: 'a' :: 'l' :: 's' :: 'e' :: rest)
                  = ['f', 'a', 'l', 's', 'e'] ++ rest from rfl]
              rw [lit_prefix_append])]
          rfl
      | num i =>
        simp only [jsonDumpChars]
        obtain ⟨c, t, hshape, hc, _⟩ := intChars_shape i
        have hfacts : isWsChar c = false ∧ ¬ c = '"' ∧ ¬ c = lbrace ∧ ¬ c = '[' ∧
            ¬ c = 'n' ∧ ¬ c = 't' ∧ ¬ c = 'f' := by
          rcases hc with hc | hc
          · subst hc
            exact ⟨by decide, by decide, by decide, by decide, by decide, by decide,
              by decide⟩
          · obtain ⟨g1, g2, g3, g4, _, g6, g7, g8, _⟩ := digit_not_special c hc
            exact ⟨g1, g2, g3, g4, g6, g7, g8⟩
        obtain ⟨f1, f2, f3, f4, f5, f6, f7⟩ := hfacts
        rw [hshape, List.cons_append,
          parseVal_num_dispatch fuel c (t ++ rest) f1 f2 f3 f4 f5 f6 f7
            (by rcases hc with hc | hc
                · exact Or.inl hc
                · exact Or.inr hc),
          ← List.cons_append, ← hshape]
        exact parseNum_intChars i rest hrest
      | str s =>
        simp only [jsonDumpChars]
        rw [show dumpStringChars s.data ++ rest
            = '"' :: (escBody s.data ++ '"' :: rest) from by
          rw [dumpStringChars]
          simp]
        rw [parseVal_string_dispatch, parseStringBody_escBody]
      | arr l =>
        cases l with
        | nil =>
          simp only [jsonDumpChars, dumpElems]
          rw [show ('[' :: ([] : List Char) ++ [']']) ++ rest
              = '[' :: ']' :: rest from by simp]
          simp only [parseVal]
          rw [skipWs_cons _ _ (by decide)]
          dsimp only
          rw [if_neg (by decide), if_neg (by decide), if_pos rfl]
          rw [skipWs_cons _ _ (by decide)]
          dsimp only
          rw [if_pos rfl]
        | cons x xs =>
          simp only [jsonDumpChars]
          rw [show ('[' :: dumpElems (x :: xs) ++ [']']) ++ rest
              = '[' :: (dumpElems (x :: xs) ++ ']' :: rest) from by simp]
          simp only [parseVal]
          rw [skipWs_cons _ _ (by decide)]
          dsimp only
          rw [if_neg (by decide), if_neg (by decide), if_pos rfl]
          obtain ⟨c, t, hshape, hws, hne1, _, _⟩ := dumpHead_facts x
          have hsplit : ∃ t2, dumpElems (x :: xs) ++ ']' :: rest = c :: t2 := by
            cases xs with
            | nil =>
              refine ⟨t ++ ']' :: rest, ?_⟩
              rw [show dumpElems [x] = jsonDumpChars x from by simp [dumpElems], hshape]
              simp
            | cons y ys =>
              refine ⟨t ++ ',' :: dumpElems (y :: ys) ++ ']' :: rest, ?_⟩
              rw [show dumpElems (x :: y :: ys)
                  = jsonDumpChars x ++ ',' :: dumpElems (y :: ys) from by
                simp [dumpElems], hshape]
              simp
          obtain ⟨t2, ht2⟩ := hsplit
          rw [ht2, skipWs_cons _ _ hws]
          dsimp only
          rw [if_neg hne1, ← ht2]
          rw [ihE x xs rest (by rw [jweight] at hw; omega) hrest]
      | obj kvs =>
        cases kvs with
        | nil =>
          simp only [jsonDumpChars, dumpMembers]
          rw [show (lbrace :: ([] : List Char) ++ [rbrace]) ++ rest
              = lbrace :: rbrace :: rest from by simp]
          simp only [parseVal]
          rw [skipWs_cons _ _ (by decide)]
          dsimp only
          rw [if_neg (by decide), if_pos rfl]
          rw [skipWs_cons _ _ (by decide)]
          dsimp only
          rw [if_pos rfl]
        | cons kv kvs2 =>
          rcases kv with ⟨k, v0⟩
          simp only [jsonDumpChars]
          rw [show (lbrace :: dumpMembers ((k, v0) :: kvs2) ++ [rbrace]) ++ rest
              = lbrace :: (dumpMembers ((k, v0) :: kvs2) ++ rbrace :: rest) from by simp]
          simp only [parseVal]
          rw [skipWs_cons _ _ (by decide)]
          dsimp only
          rw [if_neg (by decide), if_pos rfl]
          have hsplit : ∃ t2, dumpMembers ((k, v0) :: kvs2) ++ rbrace :: rest
              = '"' :: t2 := by
            cases kvs2 with
            | nil =>
              refine ⟨(escBody k.data ++ ['"']) ++ ':' :: jsonDumpChars v0
                ++ rbrace :: rest, ?_⟩
              rw [show dumpMembers [(k, v0)]
                  = dumpStringChars k.data ++ ':' :: jsonDumpChars v0 from by
                simp [dumpMembers], dumpStringChars]
              simp
            | cons m ms =>
              refine ⟨(escBody k.data ++ ['"']) ++ ':' :: jsonDumpChars v0
                ++ ',' :: dumpMembers (m :: ms) ++ rbrace :: rest, ?_⟩
              rw [show dumpMembers ((k, v0) :: m :: ms)
                  = dumpStringChars k.data ++ ':' :: jsonDumpChars v0
                    ++ ',' :: dumpMembers (m :: ms) from by
                simp [dumpMembers], dumpStringChars]
              simp
          obtain ⟨t2, ht2⟩ := hsplit
          rw [ht2, skipWs_cons _ _ (by decide)]
          dsimp only
          rw [if_neg (by decide), ← ht2]
          rw [ihM k v0 kvs2 rest (by rw [jweight] at hw; omega) hrest]
    · intro x xs rest hw hrest
      cases xs with
      | nil =>
        simp only [parseElems, dumpElems]
        rw [ihV x (']' :: rest) (by
          have := jweightElems_head_le x []
          omega) (by rw [headDigit_cons]; decide)]
        dsimp only
        rw [skipWs_cons _ _ (by decide)]
        dsimp only
        rw [if_neg (by decide), if_pos rfl]
      | cons y ys =>
        simp only [parseElems]
        rw [show dumpElems (x :: y :: ys) ++ ']' :: rest
            = jsonDumpChars x ++ (',' :: (dumpElems (y :: ys) ++ ']' :: rest)) from by
          simp [dumpElems]]
        rw [ihV x (',' :: (dumpElems (y :: ys) ++ ']' :: rest)) (by
          have := jweightElems_head_le x (y :: ys)
          omega) (by rw [headDigit_cons]; decide)]
        dsimp only
        rw [skipWs_cons _ _ (by decide)]
        dsimp only
        rw [if_pos rfl]
        rw [ihE y ys rest (by
          have := jweightElems_tail_le x (y :: ys)
          omega) hrest]
    · intro k v0 kvs rest hw hrest
      cases kvs with
      | nil =>
        simp only [parseMembers]
        rw [show dumpMembers [(k, v0)] ++ rbrace :: rest
            = '"' :: (escBody k.data ++ '"'
              :: (':' :: (jsonDumpChars v0 ++ rbrace :: rest))) from by
          simp [dumpMembers, dumpStringChars]]
        rw [skipWs_cons _ _ (by decide)]
        dsimp only
        rw [if_pos rfl, parseStringBody_escBody]
        dsimp only
        rw [skipWs_cons _ _ (by decide)]
        dsimp only
        rw [if_pos rfl]
        rw [ihV v0 (rbrace :: rest) (by
          have := jweightMembers_head_le k v0 []
          omega) (by rw [headDigit_cons]; decide)]
        dsimp only
        rw [skipWs_cons _ _ (by decide)]
        dsimp only
        rw [if_neg (by decide), if_pos rfl]
      | cons m ms =>
        rcases m with ⟨k2, w⟩
        simp only [parseMembers]
        rw [show dumpMembers ((k, v0) :: (k2, w) :: ms) ++ rbrace :: rest
            = '"' :: (escBody k.data ++ '"'
              :: (':' :: (jsonDumpChars v0
                ++ ',' :: (dumpMembers ((k2, w) :: ms) ++ rbrace :: rest)))) from by
          simp [dumpMembers, dumpStringChars]]
        rw [skipWs_cons _ _ (by decide)]
        dsimp only
        rw [if_pos rfl, parseStringBody_escBody]
        dsimp only
        rw [skipWs_cons _ _ (by decide)]
        dsimp only
        rw [if_pos rfl]
        rw [ihV v0 (',' :: (dumpMembers ((k2, w) :: ms) ++ rbrace :: rest)) (by
          have := jweightMembers_head_le k v0 ((k2, w) :: ms)
          omega) (by rw [headDigit_cons]; decide)]
        dsimp only
        rw [skipWs_cons _ _ (by decide)]
        dsimp only
        rw [if_pos rfl]
        rw [ihM k2 w ms rest (by
          have := jweightMembers_tail_le k v0 ((k2, w) :: ms)
          omega) hrest]

theorem dump_ne_nil (v : JsonVal) : 1 ≤ (jsonDumpChars v).length := by
  obtain ⟨c, t, hshape, _⟩ := dumpHead_facts v
  rw [hshape]
  simp

/-- The serialization is long enough to cover the parse fuel the weight
demands. -/
theorem weight_le_dump_length : ∀ n : Nat,
    (∀ v : JsonVal, jweight v ≤ n → jweight v ≤ (jsonDumpChars v).length) ∧
    (∀ xs : List JsonVal, jweightElems xs ≤ n →
      jweightElems xs ≤ (dumpElems xs).length + 1) ∧
    (∀ kvs : List (String × JsonVal), jweightMembers kvs ≤ n →
      jweightMembers kvs ≤ (dumpMembers kvs).length + 1) := by
  intro n
  induction n with
  | zero =>
    refine ⟨?_, ?_, ?_⟩
    · intro v h; have := jweight_pos v; omega
    · intro xs h; have := jweightElems_pos xs; omega
    · intro kvs h; have := jweightMembers_pos kvs; omega
  | succ n ih =>
    obtain ⟨ihV, ihE, ihM⟩ := ih
    refine ⟨?_, ?_, ?_⟩
    · intro v hv
      cases v with
      | null => simp [jweight, jsonDumpChars]
      | bool b => cases b <;> simp [jweight, jsonDumpChars]
      | num i =>
        have := dump_ne_nil (.num i)
        rw [jweight]
        omega
      | str s =>
        have := dump_ne_nil (.str s)
        rw [jweight]
        omega
      | arr l =>
        rw [jweight] at hv ⊢
        have he : jweightElems l ≤ (dumpElems l).length + 1 :=
          ihE l (by have := jweightElems_pos l; omega)
        have hlen : (jsonDumpChars (.arr l)).length = (dumpElems l).length + 2 := by
          simp [jsonDumpChars]
        rw [show jsonDumpChars (.arr l) = jsonDumpChars (.arr l) from rfl] at hlen
        omega
      | obj kvs =>
        rw [jweight] at hv ⊢
        have he : jweightMembers kvs ≤ (dumpMembers kvs).length + 1 :=
          ihM kvs (by have := jweightMembers_pos kvs; omega)
        have hlen : (jsonDumpChars (.obj kvs)).length = (dumpMembers kvs).length + 2 := by
          simp [jsonDumpChars]
        omega
    · intro xs hw
      cases xs with
      | nil => simp [jweightElems, dumpElems]
      | cons x xs2 =>
        have hx : jweight x ≤ (jsonDumpChars x).length := by
          apply ihV
          have := jweightElems_head_le x xs2
          omega
        have hnn := dump_ne_nil x
        cases xs2 with
        | nil =>
          rw [jweightElems, jweightElems]
          have hmax : max (jweight x) 1 ≤ (jsonDumpChars x).length :=
            Nat.max_le.mpr ⟨hx, hnn⟩
          have hlen : (dumpElems [x]).length = (jsonDumpChars x).length := by
            simp [dumpElems]
          omega
        | cons y ys =>
          have ht : jweightElems (y :: ys) ≤ (dumpElems (y :: ys)).length + 1 := by
            apply ihE
            have := jweightElems_tail_le x (y :: ys)
            omega
          rw [jweightElems]
          have hmax : max (jweight x) (jweightElems (y :: ys))
              ≤ (jsonDumpChars x).length + (dumpElems (y :: ys)).length + 1 :=
            Nat.max_le.mpr ⟨by omega, by omega⟩
          have hlen : (dumpElems (x :: y :: ys)).length
              = (jsonDumpChars x).length + (dumpElems (y :: ys)).length + 1 := by
            simp [dumpElems]
            omega
          omega
    · intro kvs hw
      cases kvs with
      | nil => simp [jweightMembers, dumpMembers]
      | cons kv kvs2 =>
        rcases kv with ⟨k, v0⟩
        have hx : jweight v0 ≤ (jsonDumpChars v0).length := by
          apply ihV
          have := jweightMembers_head_le k v0 kvs2
          omega
        have hnn := dump_ne_nil v0
        cases kvs2 with
        | nil =>
          rw [jweightMembers, jweightMembers]
          have hmax : max (jweight v0) 1 ≤ (jsonDumpChars v0).length :=
            Nat.max_le.mpr ⟨hx, hnn⟩
          have hlen : (dumpMembers [(k, v0)]).length
              = (dumpStringChars k.data).length + 1 + (jsonDumpChars v0).length := by
            simp [dumpMembers]
            omega
          omega
        | cons m ms =>
          rcases m with ⟨k2, w⟩
          have ht : jweightMembers ((k2, w) :: ms)
              ≤ (dumpMembers ((k2, w) :: ms)).length + 1 := by
            apply ihM
            have := jweightMembers_tail_le k v0 ((k2, w) :: ms)
            omega
          rw [jweightMembers]
          have hmax : max (jweight v0) (jweightMembers ((k2, w) :: ms))
              ≤ (jsonDumpChars v0).length + (dumpMembers ((k2, w) :: ms)).length + 1 :=
            Nat.max_le.mpr ⟨by omega, by omega⟩
          have hlen : (dumpMembers ((k, v0) :: (k2, w) :: ms)).length
              = (dumpStringChars k.data).length + 1 + (jsonDumpChars v0).length
                + 1 + (dumpMembers ((k2, w) :: ms)).length := by
            simp [dumpMembers]
            omega
          omega

/-- Serializing and re-parsing a value gives the value back. -/
theorem json_loads_dumps (v : JsonVal) : json_loads (json_dumps v) = some v := by
  rw [json_loads, json_dumps]
  have hfuel : jweight v ≤ (jsonDumpChars v).length + 1 := by
    have := (weight_le_dump_length (jweight v)).1 v (le_refl _)
    omega
  have h := (parse_dump ((jsonDumpChars v).length + 1)).1 v [] hfuel rfl
  rw [show jsonDumpChars v ++ ([] : List Char) = jsonDumpChars v from by simp] at h
  rw [show (String.mk (jsonDumpChars v)).length = (jsonDumpChars v).length from
    String.length_mk _]
  rw [show (String.mk (jsonDumpChars v)).data = jsonDumpChars v from rfl, h]
  rfl

/-- A character list free of both brace characters. -/
def braceFreeStr (s : List Char) : Bool :=
  s.all (fun c => (c != lbrace) && (c != rbrace))

mutual

/-- No string value or key anywhere inside the value contains a brace
character. -/
def braceFreeB : JsonVal → Bool
  | .null => true
  | .bool _ => true
  | .num _ => true
  | .str s => braceFreeStr s.data
  | .arr l => braceFreeElemsB l
  | .obj kvs => braceFreeMembersB kvs

def braceFreeElemsB : List JsonVal → Bool
  | [] => true
  | x :: xs => braceFreeB x && braceFreeElemsB xs

def braceFreeMembersB : List (String × JsonVal) → Bool
  | [] => true
  | (k, v) :: xs => braceFreeStr k.data && braceFreeB v && braceFreeMembersB xs

end

/-- The slice has total brace depth zero and no prefix dips below zero. -/
def ZeroBalanced (l : List Char) : Prop :=
  braceCount l = 0 ∧ ∀ m : Nat, 0 ≤ braceCount (l.take m)

theorem braceCount_append (a b : List Char) :
    braceCount (a ++ b) = braceCount a + braceCount b := by
  simp [braceCount]

theorem braceCount_take_append (a b : List Char) (m : Nat) :
    braceCount ((a ++ b).take m)
      = braceCount (a.take m) + braceCount (b.take (m - a.length)) := by
  rw [List.take_append_eq_append_take, braceCount_append]

theorem zeroBalanced_nil : ZeroBalanced [] :=
  ⟨rfl, fun m => by simp [braceCount]⟩

theorem zeroBalanced_append {a b : List Char}
    (ha : ZeroBalanced a) (hb : ZeroBalanced b) : ZeroBalanced (a ++ b) := by
  obtain ⟨ha1, ha2⟩ := ha
  obtain ⟨hb1, hb2⟩ := hb
  constructor
  · rw [braceCount_append]
    omega
  · intro m
    rw [braceCount_take_append]
    have h1 := ha2 m
    have h2 := hb2 (m - a.length)
    omega

theorem braceCount_eq_zero_of_delta_free {l : List Char}
    (h : ∀ c ∈ l, braceDelta c = 0) : braceCount l = 0 := by
  rw [braceCount]
  apply List.sum_eq_zero
  intro x hx
  rw [List.mem_map] at hx
  obtain ⟨c, hc, hcx⟩ := hx
  rw [← hcx]
  exact h c hc

theorem zeroBalanced_of_delta_free {l : List Char}
    (h : ∀ c ∈ l, braceDelta c = 0) : ZeroBalanced l := by
  refine ⟨braceCount_eq_zero_of_delta_free h, ?_⟩
  intro m
  rw [braceCount_eq_zero_of_delta_free
    (fun c hc => h c (List.mem_of_mem_take hc))]

theorem braceDelta_eq_zero {c : Char} (h1 : c ≠ lbrace) (h2 : c ≠ rbrace) :
    braceDelta c = 0 := by
  rw [braceDelta, if_neg h1, if_neg h2]

theorem escBody_cons (x : Char) (t : List Char) :
    escBody (x :: t) = escapeChar x ++ escBody t := rfl

theorem mem_escBody {c : Char} {s : List Char} (h : c ∈ escBody s) :
    c = bslash ∨ c = '"' ∨ c ∈ s := by
  induction s with
  | nil => exact absurd h (by simp [escBody])
  | cons x t ih =>
    rw [escBody_cons, List.mem_append] at h
    rcases h with h | h
    · rw [escapeChar] at h
      by_cases hq : x = '"'
      · rw [if_pos hq] at h
        simp at h
        rcases h with h | h
        · exact Or.inl h
        · exact Or.inr (Or.inl h)
      · rw [if_neg hq] at h
        by_cases hb : x = bslash
        · rw [if_pos hb] at h
          simp at h
          exact Or.inl h
        · rw [if_neg hb] at h
          simp at h
          subst h
          exact Or.inr (Or.inr (List.mem_cons_self _ _))
    · rcases ih h with h2 | h2 | h2
      · exact Or.inl h2
      · exact Or.inr (Or.inl h2)
      · exact Or.inr (Or.inr (List.mem_cons_of_mem _ h2))

theorem dumpString_delta_free {s : List Char} (h : braceFreeStr s = true) :
    ∀ c ∈ dumpStringChars s, braceDelta c = 0 := by
  intro c hc
  have hqd : braceDelta '"' = 0 := by decide
  have hbd : braceDelta bslash = 0 := by decide
  rw [dumpStringChars] at hc
  rcases List.mem_cons.mp hc with hc1 | hc1
  · rw [hc1]
    exact hqd
  · rcases List.mem_append.mp hc1 with hc2 | hc2
    · rcases mem_escBody hc2 with h2 | h2 | h2
      · rw [h2]
        exact hbd
      · rw [h2]
        exact hqd
      · rw [braceFreeStr, List.all_eq_true] at h
        have h3 := h c h2
        simp only [Bool.and_eq_true, bne_iff_ne, ne_eq] at h3
        exact braceDelta_eq_zero h3.1 h3.2
    · have hce : c = '"' := by simpa using hc2
      rw [hce]
      exact hqd

theorem intChars_delta_free (i : Int) : ∀ c ∈ intChars i, braceDelta c = 0 := by
  intro c hc
  obtain ⟨_, h2, _⟩ := natDigits_spec i.natAbs
  have hdig : ∀ d : Char, isDigitChar d = true → braceDelta d = 0 := by
    intro d hd
    obtain ⟨_, _, hl, _, _, _, _, _, _, hr, _, _⟩ := digit_not_special d hd
    exact braceDelta_eq_zero hl hr
  rw [intChars] at hc
  by_cases hneg : i < 0
  · rw [if_pos hneg] at hc
    rcases List.mem_cons.mp hc with h | h
    · rw [h]
      decide
    · exact hdig c (h2 c h)
  · rw [if_neg hneg] at hc
    exact hdig c (h2 c hc)

/-- Every serialized brace-free value is brace-balanced, and so are the
serialized element and member lists. -/
theorem dump_zero_balanced : ∀ n : Nat,
    (∀ v : JsonVal, jweight v ≤ n → braceFreeB v = true →
      ZeroBalanced (jsonDumpChars v)) ∧
    (∀ xs : List JsonVal, jweightElems xs ≤ n → braceFreeElemsB xs = true →
      ZeroBalanced (dumpElems xs)) ∧
    (∀ kvs : List (String × JsonVal), jweightMembers kvs ≤ n →
      braceFreeMembersB kvs = true → ZeroBalanced (dumpMembers kvs)) := by
  intro n
  induction n with
  | zero =>
    refine ⟨?_, ?_, ?_⟩
    · intro v h _; have := jweight_pos v; omega
    · intro xs h _; have := jweightElems_pos xs; omega
    · intro kvs h _; have := jweightMembers_pos kvs; omega
  | succ n ih =>
    obtain ⟨ihV, ihE, ihM⟩ := ih
    have hcomma : ZeroBalanced [','] := zeroBalanced_of_delta_free (by decide)
    have hcolon : ZeroBalanced [':'] := zeroBalanced_of_delta_free (by decide)
    refine ⟨?_, ?_, ?_⟩
    · intro v hv hbf
      cases v with
      | null => exact zeroBalanced_of_delta_free (by decide)
      | bool b => cases b <;> exact zeroBalanced_of_delta_free (by decide)
      | num i =>
        rw [show jsonDumpChars (.num i) = intChars i from by simp [jsonDumpChars]]
        exact zeroBalanced_of_delta_free (intChars_delta_free i)
      | str s =>
        rw [show jsonDumpChars (.str s) = dumpStringChars s.data from by
          simp [jsonDumpChars]]
        rw [braceFreeB] at hbf
        exact zeroBalanced_of_delta_free (dumpString_delta_free hbf)
      | arr l =>
        rw [jweight] at hv
        rw [braceFreeB] at hbf
        have hE := ihE l (by omega) hbf
        rw [show jsonDumpChars (.arr l) = ['['] ++ (dumpElems l ++ [']']) from by
          simp [jsonDumpChars]]
        exact zeroBalanced_append (zeroBalanced_of_delta_free (by decide))
          (zeroBalanced_append hE (zeroBalanced_of_delta_free (by decide)))
      | obj kvs =>
        rw [jweight] at hv
        rw [braceFreeB] at hbf
        have hM := ihM kvs (by omega) hbf
        rw [show jsonDumpChars (.obj kvs)
            = lbrace :: (dumpMembers kvs ++ [rbrace]) from by simp [jsonDumpChars]]
        obtain ⟨hM1, hM2⟩ := hM
        constructor
        · rw [braceCount_cons, braceDelta_lbrace, braceCount_append, hM1]
          decide
        · intro m
          cases m with
          | zero => simp [braceCount]
          | succ k =>
            rw [braceCount_take_succ, braceDelta_lbrace, braceCount_take_append]
            have h1 := hM2 k
            have h2 : (-1 : Int)
                ≤ braceCount ([rbrace].take (k - (dumpMembers kvs).length)) := by
              cases hk : k - (dumpMembers kvs).length with
              | zero => simp [braceCount]
              | succ j =>
                rw [show ([rbrace].take (j + 1)) = [rbrace] from by simp]
                decide
            omega
    · intro xs hw hbf
      cases xs with
      | nil => exact zeroBalanced_nil
      | cons x xs2 =>
        rw [braceFreeElemsB] at hbf
        simp only [Bool.and_eq_true] at hbf
        have hx : ZeroBalanced (jsonDumpChars x) := by
          apply ihV x _ hbf.1
          have := jweightElems_head_le x xs2
          omega
        cases xs2 with
        | nil =>
          rw [show dumpElems [x] = jsonDumpChars x from by simp [dumpElems]]
          exact hx
        | cons y ys =>
          have ht : ZeroBalanced (dumpElems (y :: ys)) := by
            apply ihE _ _ hbf.2
            have := jweightElems_tail_le x (y :: ys)
            omega
          rw [show dumpElems (x :: y :: ys)
              = jsonDumpChars x ++ ([','] ++ dumpElems (y :: ys)) from by
            simp [dumpElems]]
          exact zeroBalanced_append hx (zeroBalanced_append hcomma ht)
    · intro kvs hw hbf
      cases kvs with
      | nil => exact zeroBalanced_nil
      | cons kv kvs2 =>
        rcases kv with ⟨k, v0⟩
        rw [braceFreeMembersB] at hbf
        simp only [Bool.and_eq_true] at hbf
        have hk : ZeroBalanced (dumpStringChars k.data) :=
          zeroBalanced_of_delta_free (dumpString_delta_free hbf.1.1)
        have hv0 : ZeroBalanced (jsonDumpChars v0) := by
          apply ihV v0 _ hbf.1.2
          have := jweightMembers_head_le k v0 kvs2
          omega
        cases kvs2 with
        | nil =>
          rw [show dumpMembers [(k, v0)]
              = dumpStringChars k.data ++ ([':'] ++ jsonDumpChars v0) from by
            simp [dumpMembers]]
          exact zeroBalanced_append hk (zeroBalanced_append hcolon hv0)
        | cons m ms =>
          rcases m with ⟨k2, w⟩
          have ht : ZeroBalanced (dumpMembers ((k2, w) :: ms)) := by
            apply ihM _ _ hbf.2
            have := jweightMembers_tail_le k v0 ((k2, w) :: ms)
            omega
          rw [show dumpMembers ((k, v0) :: (k2, w) :: ms)
              = dumpStringChars k.data
                ++ ([':'] ++ (jsonDumpChars v0
                  ++ ([','] ++ dumpMembers ((k2, w) :: ms)))) from by
            simp [dumpMembers]]
          exact zeroBalanced_append hk (zeroBalanced_append hcolon
            (zeroBalanced_append hv0 (zeroBalanced_append hcomma ht)))

theorem obj_dump_eq (kvs : List (String × JsonVal)) :
    jsonDumpChars (.obj kvs) = lbrace :: (dumpMembers kvs ++ [rbrace]) := by
  simp [jsonDumpChars]

/-- Every proper nonempty prefix of a serialized brace-free object keeps a
strictly positive brace depth. -/
theorem obj_dump_proper_prefix_pos (kvs : List (String × JsonVal))
    (hM : ZeroBalanced (dumpMembers kvs)) :
    ∀ m, 1 ≤ m → m < (jsonDumpChars (.obj kvs)).length →
      braceCount ((jsonDumpChars (.obj kvs)).take m) ≠ 0 := by
  intro m hm1 hm2
  obtain ⟨k, rfl⟩ : ∃ k, m = k + 1 := ⟨m - 1, by omega⟩
  rw [obj_dump_eq] at hm2 ⊢
  rw [braceCount_take_succ, braceDelta_lbrace, braceCount_take_append]
  have hk : k ≤ (dumpMembers kvs).length := by
    simp at hm2
    omega
  rw [show k - (dumpMembers kvs).length = 0 from by omega, List.take_zero,
    braceCount_nil]
  have := hM.2 k
  omega

/-- In the extractor suffix starting at the object, the balanced slice ends
exactly at the end of the serialized object, whatever follows it. -/
theorem obj_dump_balancedSliceAt (kvs : List (String × JsonVal)) (post : List Char)
    (hbf : braceFreeMembersB kvs = true) :
    BalancedSliceAt (jsonDumpChars (.obj kvs) ++ post)
      (jsonDumpChars (.obj kvs)).length := by
  have hM : ZeroBalanced (dumpMembers kvs) :=
    (dump_zero_balanced (jweightMembers kvs)).2.2 kvs (le_refl _) hbf
  have hZ : ZeroBalanced (jsonDumpChars (.obj kvs)) :=
    (dump_zero_balanced (jweight (.obj kvs))).1 _ (le_refl _)
      (by rw [braceFreeB]; exact hbf)
  have hlen : 1 ≤ (jsonDumpChars (.obj kvs)).length := dump_ne_nil _
  refine ⟨hlen, by simp, ?_, ?_⟩
  · rw [List.take_append_eq_append_take, Nat.sub_self, List.take_zero,
      List.append_nil, List.take_length]
    exact hZ.1
  · intro j hj1 hj2
    rw [List.take_append_eq_append_take,
      show j - (jsonDumpChars (.obj kvs)).length = 0 from by omega,
      List.take_zero, List.append_nil]
    exact obj_dump_proper_prefix_pos kvs hM j hj1 hj2

theorem drop_append_of_le_length {a : List Char} (b : List Char) {j : Nat}
    (h : a.length ≤ j) : (a ++ b).drop j = b.drop (j - a.length) := by
  rw [List.drop_append_eq_append_drop, List.drop_eq_nil_of_le h, List.nil_append]

/-- No position strictly inside `a` starts an opening brace when `a` has
none. -/
theorem no_lbrace_prefix_in (a b : List Char) (ha : ∀ c ∈ a, ¬ c = lbrace)
    (d : Nat) (hd : d < a.length) :
    [lbrace].isPrefixOf ((a ++ b).drop d) = false := by
  cases hp : [lbrace].isPrefixOf ((a ++ b).drop d) with
  | false => rfl
  | true =>
    obtain ⟨t, ht⟩ := (singleton_isPrefixOf_iff _ _).mp hp
    rw [List.drop_append_eq_append_drop] at ht
    cases hda : a.drop d with
    | nil =>
      have hlen : (a.drop d).length = a.length - d := List.length_drop _ _
      rw [hda] at hlen
      simp at hlen
      omega
    | cons c t2 =>
      rw [hda, List.cons_append] at ht
      injection ht with h1 _
      have hcm : c ∈ a :=
        List.mem_of_mem_drop (by rw [hda]; exact List.mem_cons_self _ _)
      exact absurd h1 (ha c hcm)

/-- A script text that embeds the serialization of `v` after the key:
arbitrary text, the key, arbitrary glue, the serialized object, arbitrary
trailing text. -/
def embedSwagger (pre mid post : String) (v : JsonVal) : String :=
  pre ++ String.mk swaggerKey ++ mid ++ json_dumps v ++ post

theorem embed_data (pre mid post : String) (v : JsonVal) :
    (embedSwagger pre mid post v).data
      = pre.data ++ (swaggerKey ++ (mid.data ++ (jsonDumpChars v ++ post.data))) := by
  simp [embedSwagger, json_dumps, List.append_assoc]

/-- C3 (amended): the extractor does recover an embedded JSON object,
provided the embedding is honest: the key's first occurrence precedes the
object, no opening brace intervenes between the key and the object, and no
string key or value inside the object contains a brace character. -/
theorem extract_embedded_roundtrip (pre mid post : String)
    (kvs : List (String × JsonVal))
    (hpre : ∀ j, j < pre.length →
      swaggerKey.isPrefixOf ((embedSwagger pre mid post (.obj kvs)).data.drop j)
        = false)
    (hmid : ∀ c ∈ mid.data, ¬ c = lbrace)
    (hbf : braceFreeMembersB kvs = true) :
    extract_swagger_doc_from_js (embedSwagger pre mid post (.obj kvs))
      = .ok (.obj kvs) := by
  have hdata := embed_data pre mid post (.obj kvs)
  have hplen : pre.length = pre.data.length := rfl
  have hmlen : mid.length = mid.data.length := rfl
  have hocc : (embedSwagger pre mid post (.obj kvs)).data.drop pre.length
      = swaggerKey ++ (mid.data ++ (jsonDumpChars (.obj kvs) ++ post.data)) := by
    rw [hdata, hplen, drop_append_of_le_length _ (le_refl _), Nat.sub_self,
      List.drop_zero]
  have h1 : findSub (embedSwagger pre mid post (.obj kvs)).data swaggerKey
      = some pre.length := by
    refine (findSub_some_iff swaggerKey _ pre.length).mpr ⟨?_, ?_⟩
    · rw [hocc]
      exact lit_prefix_append _ _
    · intro j hj
      exact hpre j hj
  have hAlen : (pre.data ++ (swaggerKey ++ mid.data)).length
      = pre.length + (10 + mid.length) := by
    rw [List.length_append, List.length_append,
      show swaggerKey.length = 10 from by decide, hplen, hmlen]
  have hdropB : (embedSwagger pre mid post (.obj kvs)).data.drop
        (pre.length + (10 + mid.length))
      = jsonDumpChars (.obj kvs) ++ post.data := by
    rw [hdata, show pre.data ++ (swaggerKey ++ (mid.data
          ++ (jsonDumpChars (.obj kvs) ++ post.data)))
        = (pre.data ++ (swaggerKey ++ mid.data))
          ++ (jsonDumpChars (.obj kvs) ++ post.data) from by
      simp [List.append_assoc], ← hAlen,
      drop_append_of_le_length _ (le_refl _), Nat.sub_self, List.drop_zero]
  have h2 : (findSub ((embedSwagger pre mid post (.obj kvs)).data.drop pre.length)
        [lbrace]).map (· + pre.length)
      = some (pre.length + (10 + mid.length)) := by
    refine (braceFind_some_iff _ pre.length _).mpr ⟨by omega, ?_, ?_⟩
    · rw [hdropB, obj_dump_eq, List.cons_append]
      exact (singleton_isPrefixOf_iff _ _).mpr ⟨_, rfl⟩
    · intro j hj1 hj2
      have hjd : (embedSwagger pre mid post (.obj kvs)).data.drop j
          = ((swaggerKey ++ mid.data)
            ++ (jsonDumpChars (.obj kvs) ++ post.data)).drop (j - pre.length) := by
        rw [hdata, show pre.data ++ (swaggerKey ++ (mid.data
              ++ (jsonDumpChars (.obj kvs) ++ post.data)))
            = pre.data ++ ((swaggerKey ++ mid.data)
              ++ (jsonDumpChars (.obj kvs) ++ post.data)) from by
          simp [List.append_assoc],
          drop_append_of_le_length _ (by rw [← hplen]; omega), hplen]
      rw [hjd]
      apply no_lbrace_prefix_in
      · intro c hc
        rw [List.mem_append] at hc
        rcases hc with hc | hc
        · have hkey : ∀ c ∈ swaggerKey, ¬ c = lbrace := by decide
          exact hkey c hc
        · exact hmid c hc
      · rw [List.length_append, show swaggerKey.length = 10 from by decide,
          ← hmlen]
        omega
  have hbal : BalancedSliceAt (jsonDumpChars (.obj kvs) ++ post.data)
      (jsonDumpChars (.obj kvs)).length :=
    obj_dump_balancedSliceAt kvs post.data hbf
  have hloop : braceLoop ((embedSwagger pre mid post (.obj kvs)).data.drop
        (pre.length + (10 + mid.length))) 0 []
      = some (jsonDumpChars (.obj kvs)) := by
    have hlen2 : (jsonDumpChars (.obj kvs)).length
        = (dumpMembers kvs).length + 2 := by
      rw [obj_dump_eq]
      simp
    have hbal2 := hbal
    rw [hlen2, obj_dump_eq, List.cons_append] at hbal2
    obtain ⟨c1, c2, c3, c4⟩ :=
      (balancedSliceAt_cons_lbrace
          ((dumpMembers kvs ++ [rbrace]) ++ post.data)
          ((dumpMembers kvs).length + 1)).mp
        (by
          rw [show (dumpMembers kvs).length + 1 + 1
              = (dumpMembers kvs).length + 2 from by omega]
          exact hbal2)
    rw [hdropB, obj_dump_eq, List.cons_append, braceLoop_cons_lbrace,
      show (0 : Int) + 1 = 1 from by omega, List.nil_append]
    have htake : ((dumpMembers kvs ++ [rbrace]) ++ post.data).take
        ((dumpMembers kvs).length + 1) = dumpMembers kvs ++ [rbrace] := by
      rw [show (dumpMembers kvs).length + 1
          = (dumpMembers kvs ++ [rbrace]).length from by simp,
        List.take_append_eq_append_take, Nat.sub_self, List.take_zero,
        List.append_nil, List.take_length]
    refine (braceLoop_some_iff _ 1 _ _ (by omega)).mpr
      ⟨(dumpMembers kvs).length + 1, by omega, c2, c3, c4, ?_⟩
    rw [htake]
    rfl
  simp only [extract_swagger_doc_from_js]
  rw [h1]
  dsimp only
  rw [h2]
  dsimp only
  rw [hloop]
  dsimp only
  rw [show String.mk (jsonDumpChars (.obj kvs)) = json_dumps (.obj kvs) from rfl,
    json_loads_dumps]

/-- C3 witness: an object embedded after the key with a `: ` glue is
recovered verbatim. -/
theorem extract_embedded_roundtrip_witness :
    extract_swagger_doc_from_js
        (embedSwagger ("") (": ") ("") (.obj [(("a"), JsonVal.str ("b"))]))
      = .ok (.obj [(("a"), JsonVal.str ("b"))]) :=
  extract_embedded_roundtrip ("") (": ") ("") [(("a"), JsonVal.str ("b"))]
    (by
      intro j hj
      rw [show String.length ("") = 0 from rfl] at hj
      omega)
    (by decide)
    (by decide)

/-- C3 counterexample: a brace character inside an embedded string value
desynchronizes the character-level brace counter, so the extractor truncates
the slice mid-string and fails with a parse error instead of returning the
object; the claim's promise for every JSON object in any script text is
false. -/
theorem extract_desync_on_brace_in_string :
    extract_swagger_doc_from_js
        (embedSwagger ("") (": ") ("")
          (.obj [(("a"), JsonVal.str (String.mk [rbrace]))]))
      = .error .embeddedJsonParseError ∧
    ¬ extract_swagger_doc_from_js
        (embedSwagger ("") (": ") ("")
          (.obj [(("a"), JsonVal.str (String.mk [rbrace]))]))
      = .ok (.obj [(("a"), JsonVal.str (String.mk [rbrace]))]) := by
  constructor
  · decide
  · decide

end PetstoreMcp
